import Mathlib

/-!
# SymbolIndex: address-to-symbol index of `dbms/src/Common/SymbolIndex.cpp`

A shallow embedding of the symbol index: the two symbol extractors, the
rebuild (`SymbolIndex.update`) and the range lookup (`find`).

Conventions of the embedding.

* Addresses and machine integers are natural numbers. Arithmetic on
  `ElfW(Addr)` and `size_t` values is taken modulo `2 ^ 64`; values read from
  memory are reduced to the width of their C type when they are read.
* Stepping a pointer through an array (`hash[i]`, `elf_sym[i]`, `++entry`) is
  plain addition of the element size; such a pointer never wraps. The one
  pointer that is computed from a `size_t` that may have wrapped, `hashval` of
  the GNU hash decoder, is reduced modulo `2 ^ 64`.
* Process memory is a record of typed views (`Memory`). Reading a 32-bit word
  or an entry of the dynamic symbol table at or beyond `Memory.limit` is a
  fault, which is what bounds the chain scan of the GNU hash decoder. The
  entries of an on-disk symbol table are read inside the mapped file, which
  the ELF reader has checked.
* A function that can fault, throw or loop for ever returns `Except Fault`.
-/

namespace DB

/-! ## Machine model -/

/-- Number of values of `ElfW(Addr)`, `size_t` and of a data pointer. -/
def ADDR_MOD : Nat := 2 ^ 64

/-- Number of values of `ElfW(Word)`, a 32-bit unsigned integer. -/
def WORD_MOD : Nat := 2 ^ 32

/-- Size in bytes of `ElfW(Word)`. -/
def SIZEOF_WORD : Nat := 4

/-- Size in bytes of `size_t`. -/
def SIZEOF_SIZE_T : Nat := 8

/-- Size in bytes of `ElfW(Sym)` (and of the `ElfSym` of the ELF reader). -/
def SIZEOF_SYM : Nat := 24

/-- Program header type of the dynamic segment, from `elf.h`. -/
def PT_DYNAMIC : Nat := 2

/-- Terminator tag of the dynamic section, from `elf.h`. -/
def DT_NULL : Int := 0

/-- Tag of the classic hash table, from `elf.h`. -/
def DT_HASH : Int := 4

/-- Tag of the string table, from `elf.h`. -/
def DT_STRTAB : Int := 5

/-- Tag of the symbol table, from `elf.h`. -/
def DT_SYMTAB : Int := 6

/-- Tag of the GNU hash table, from `elf.h`. -/
def DT_GNU_HASH : Int := 0x6ffffef5

/-- Section type of the full symbol table, from `elf.h`. -/
def SHT_SYMTAB : Nat := 2

/-- Section type of a string table, from `elf.h`. -/
def SHT_STRTAB : Nat := 3

/-- The ways in which a call does not return normally. -/
inductive Fault where
  /-- A read outside the mapped memory. -/
  | segv
  /-- A C++ exception that nothing catches, with its message. -/
  | exception (what : String)
  /-- A loop whose exit condition can never become true. -/
  | hang
deriving DecidableEq, Repr

/-- One entry of the dynamic section: `ElfW(Dyn)` with `d_un.d_ptr`. -/
structure ElfDyn where
  d_tag : Int
  d_ptr : Nat
deriving DecidableEq, Repr

/-- The fields of `ElfW(Sym)` that the extractors read. -/
structure ElfSym where
  st_name : Nat
  st_value : Nat
  st_size : Nat
deriving DecidableEq, Repr

/-- The fields of `ElfW(Phdr)` that the extractor reads. -/
structure ElfPhdr where
  p_type : Nat
  p_vaddr : Nat
deriving DecidableEq, Repr

/-- The loaded-object descriptor; `dlpi_phnum` is the length of `dlpi_phdr`. -/
structure dl_phdr_info where
  dlpi_addr : Nat
  dlpi_name : String
  dlpi_phdr : List ElfPhdr
deriving DecidableEq, Repr

/-- Typed views of the address space of the process.

* `word a` is the 32-bit word stored at address `a`, for `a < limit`;
* `dyn a` is the array of `ElfW(Dyn)` entries stored from address `a` on, up to
  its `DT_NULL` terminator (the terminator itself may be left out); the loader
  has mapped the dynamic segment, and reading it does not fault;
* `sym a` is the `ElfW(Sym)` stored at address `a`;
* `cstr a` is the NUL-terminated string stored at address `a`. -/
structure Memory where
  limit : Nat
  word : Nat → Nat
  dyn : Nat → List ElfDyn
  sym : Nat → ElfSym
  cstr : Nat → String

/-- Read of an `ElfW(Word)` through a pointer. -/
def Memory.readWord (mem : Memory) (a : Nat) : Except Fault Nat :=
  if a < mem.limit then .ok (mem.word a % WORD_MOD) else .error Fault.segv

/-- The `ElfW(Sym)` stored at an address, each field at its C width. -/
def Memory.readSym (mem : Memory) (a : Nat) : ElfSym :=
  { st_name := (mem.sym a).st_name % WORD_MOD
    st_value := (mem.sym a).st_value % ADDR_MOD
    st_size := (mem.sym a).st_size % ADDR_MOD }

/-- Read of an `ElfW(Sym)` of the process image through a pointer: a fault at
or beyond `limit`, as for a word. -/
def Memory.loadSym (mem : Memory) (a : Nat) : Except Fault ElfSym :=
  if a < mem.limit then .ok (mem.readSym a) else .error Fault.segv

/-! ## Data model -/

/-- Modelled from the spec: `Elf::Section` of the ELF reader, whose header is
not part of the sources at hand. One section of an opened ELF file:
`header.sh_type`, `name()`, and the addresses `begin()` and `end()` of its
bytes in the mapping of the file. -/
structure Elf.Section where
  sh_type : Nat
  name : String
  begin_ : Nat
  end_ : Nat
deriving DecidableEq, Repr

/-- Modelled from the spec: the class `Elf` of the ELF reader, whose header is
not part of the sources at hand. An opened ELF file: the address at which the
file is mapped, `size()`, and its sections in the order of the section header
table. -/
structure Elf where
  mapped : Nat
  size : Nat
  sections : List Elf.Section
deriving DecidableEq, Repr

/-- Modelled from the spec: `Elf::end()`, the address one past the last byte of
the mapped file. -/
def Elf.end_ (elf : Elf) : Nat := elf.mapped + elf.size

/-- Modelled from the spec: `Elf::iterateSections` of the ELF reader, which is
not part of the sources at hand. The sections are visited in order, the
predicate is called with the section and its index, and the iteration stops
with `true` as soon as the predicate answers `true`; it answers `false` when no
call did. The state `σ` is what the predicate captures by reference. -/
def Elf.iterateSectionsFrom {σ : Type} (pred : Elf.Section → Nat → σ → Bool × σ) :
    List Elf.Section → Nat → σ → Bool × σ
  | [], _, st => (false, st)
  | section_ :: rest, idx, st =>
    match pred section_ idx st with
    | (true, st1) => (true, st1)
    | (false, st1) => Elf.iterateSectionsFrom pred rest (idx + 1) st1

/-- Modelled from the spec: `Elf::iterateSections`, see `Elf.iterateSectionsFrom`. -/
def Elf.iterateSections {σ : Type} (elf : Elf)
    (pred : Elf.Section → Nat → σ → Bool × σ) (st : σ) : Bool × σ :=
  Elf.iterateSectionsFrom pred elf.sections 0 st

/-- Modelled from the spec: `SymbolIndex::Symbol`, declared in `SymbolIndex.h`,
which is not part of the sources at hand. A named address range
`[address_begin, address_end)`. -/
structure SymbolIndex.Symbol where
  address_begin : Nat
  address_end : Nat
  name : String
deriving DecidableEq, Repr

/-- Modelled from the spec: `SymbolIndex::Object`, declared in `SymbolIndex.h`.
A loaded object, its address range and its ELF reader. -/
structure SymbolIndex.Object where
  address_begin : Nat
  address_end : Nat
  name : String
  elf : Elf
deriving DecidableEq, Repr

/-- Modelled from the spec: `SymbolIndex::Data`, declared in `SymbolIndex.h`.
The two lists of the index, which the code reads as `data.symbols` and
`data.objects`. -/
structure SymbolIndex.Data where
  symbols : List SymbolIndex.Symbol
  objects : List SymbolIndex.Object
deriving DecidableEq, Repr

/-- Modelled from the spec: the class `SymbolIndex`, declared in
`SymbolIndex.h`, with its member `data`. Both lists are empty before the first
`update`. -/
structure SymbolIndex where
  data : SymbolIndex.Data := { symbols := [], objects := [] }
deriving DecidableEq, Repr

/-- What the template parameter `T` of `find` has to provide. -/
class AddressRange (T : Type) where
  address_begin : T → Nat
  address_end : T → Nat

instance : AddressRange SymbolIndex.Symbol where
  address_begin := SymbolIndex.Symbol.address_begin
  address_end := SymbolIndex.Symbol.address_end

instance : AddressRange SymbolIndex.Object where
  address_begin := SymbolIndex.Object.address_begin
  address_end := SymbolIndex.Object.address_end

/-- What the rebuild reads from outside the index.

* `mem`: the memory of the process, the mapped ELF files included;
* `loaded`: the descriptors that `dl_iterate_phdr` reports, in its order;
* `canonical`: `std::filesystem::canonical(path, ec)`, `none` when `ec` is set;
* `file_exists`: `std::filesystem::exists`;
* `path_append`: `operator/` of `std::filesystem::path`;
* `open_elf`: the constructor `Elf(path)`, which throws on a file that cannot
  be read or parsed. -/
structure Host where
  mem : Memory
  loaded : List dl_phdr_info
  canonical : String → Option String
  file_exists : String → Bool
  path_append : String → String → String
  open_elf : String → Except String Elf

/-! ## Live-header extractor -/

/-- The lambda `correct_address`: a value greater than the base is taken as
absolute, any other value as relative to the base. -/
def correct_address (base ptr : Nat) : Nat :=
  if ptr > base then ptr else (base + ptr) % ADDR_MOD

/-- The loop `for (i = 0; i < hash[0]; ++i) if (buckets[i] > sym_cnt) sym_cnt = buckets[i];`
with the number of iterations left, the index `i` and the running `sym_cnt`. -/
def gnuBucketLoop (mem : Memory) (buckets : Nat) : Nat → Nat → Nat → Except Fault Nat
  | 0, _, sym_cnt => .ok sym_cnt
  | n + 1, i, sym_cnt =>
    match mem.readWord (buckets + SIZEOF_WORD * i) with
    | .error f => .error f
    | .ok b => gnuBucketLoop mem buckets n (i + 1) (if b > sym_cnt then b else sym_cnt)

/-- The loop `do { ++sym_cnt; } while (!(*hashval++ & 1));`. The first argument
bounds the number of words between `hashval` and the end of memory. -/
def gnuChainLoop (mem : Memory) : Nat → Nat → Nat → Except Fault Nat
  | 0, _, _ => .error Fault.segv
  | fuel + 1, hashval, sym_cnt =>
    match mem.readWord hashval with
    | .error f => .error f
    | .ok w =>
      if w % 2 = 1 then .ok ((sym_cnt + 1) % ADDR_MOD)
      else gnuChainLoop mem fuel (hashval + SIZEOF_WORD) ((sym_cnt + 1) % ADDR_MOD)

/-- The body of the `DT_GNU_HASH` branch: the symbol count it leaves in `sym_cnt`
(which is `0` when the branch is entered). The subtraction `sym_cnt -= hash[1]`
is one of `size_t` and wraps when `hash[1]` is the greater; so does the pointer
`hashval` that is computed from it. -/
def gnuHashSymCnt (mem : Memory) (hash : Nat) : Except Fault Nat :=
  match mem.readWord (hash + SIZEOF_WORD * 2) with
  | .error f => .error f
  | .ok hash2 =>
    let buckets := hash + SIZEOF_WORD * (4 + hash2 * SIZEOF_SIZE_T / 4)
    match mem.readWord hash with
    | .error f => .error f
    | .ok hash0 =>
      match gnuBucketLoop mem buckets hash0 0 0 with
      | .error f => .error f
      | .ok sym_cnt =>
        if sym_cnt ≠ 0 then
          match mem.readWord (hash + SIZEOF_WORD * 1) with
          | .error f => .error f
          | .ok hash1 =>
            let sym_cnt := (sym_cnt + ADDR_MOD - hash1) % ADDR_MOD
            let hashval := (buckets + SIZEOF_WORD * hash0 + SIZEOF_WORD * sym_cnt) % ADDR_MOD
            gnuChainLoop mem (mem.limit - hashval) hashval sym_cnt
        else .ok sym_cnt

/-- The first scan of the dynamic section: the symbol count given by the first
`DT_HASH` or `DT_GNU_HASH` entry met before the terminator, `0` without one. -/
def symCntScan (mem : Memory) (base : Nat) : List ElfDyn → Except Fault Nat
  | [] => .ok 0
  | it :: rest =>
    if it.d_tag = DT_NULL then .ok 0
    else if it.d_tag = DT_HASH then
      mem.readWord (correct_address base it.d_ptr + SIZEOF_WORD * 1)
    else if it.d_tag = DT_GNU_HASH then
      gnuHashSymCnt mem (correct_address base it.d_ptr)
    else symCntScan mem base rest

/-- The second scan of the dynamic section: the pointer `strtab`, which stays
null (`0`) without a `DT_STRTAB` entry. -/
def strtabScan (base : Nat) : List ElfDyn → Nat
  | [] => 0
  | it :: rest =>
    if it.d_tag = DT_NULL then 0
    else if it.d_tag = DT_STRTAB then correct_address base it.d_ptr
    else strtabScan base rest

/-- The walk over the dynamic symbol table, with the number of iterations
left, `sym_index` and the list that receives the symbols. The read of
`elf_sym[sym_index]` faults outside the memory. -/
def dynSymLoop (mem : Memory) (base strtab elf_sym : Nat) :
    Nat → Nat → List SymbolIndex.Symbol → Except Fault (List SymbolIndex.Symbol)
  | 0, _, symbols => .ok symbols
  | n + 1, sym_index, symbols =>
    match mem.loadSym (elf_sym + SIZEOF_SYM * sym_index) with
    | .error f => .error f
    | .ok entry =>
      if entry.st_size = 0 then dynSymLoop mem base strtab elf_sym n (sym_index + 1) symbols
      else
        let sym_name := strtab + entry.st_name
        if sym_name = 0 then dynSymLoop mem base strtab elf_sym n (sym_index + 1) symbols
        else
          let symbol : SymbolIndex.Symbol :=
            { address_begin := (base + entry.st_value) % ADDR_MOD
              address_end := (base + entry.st_value + entry.st_size) % ADDR_MOD
              name := mem.cstr sym_name }
          dynSymLoop mem base strtab elf_sym n (sym_index + 1) (symbols ++ [symbol])

/-- The third scan of the dynamic section: at the first `DT_SYMTAB` entry the
symbol table is walked. The index `sym_index` is an `ElfW(Word)` and the bound
`sym_cnt` a `size_t`: with a bound of `2 ^ 32` or more the index runs through
its `2 ^ 32` values and is `0` again without having reached the bound, so the
walk faults in that round or its exit condition never becomes true. -/
def symtabScan (mem : Memory) (base sym_cnt strtab : Nat) (symbols : List SymbolIndex.Symbol) :
    List ElfDyn → Except Fault (List SymbolIndex.Symbol)
  | [] => .ok symbols
  | it :: rest =>
    if it.d_tag = DT_NULL then .ok symbols
    else if it.d_tag = DT_SYMTAB then
      if sym_cnt < WORD_MOD then
        dynSymLoop mem base strtab (correct_address base it.d_ptr) sym_cnt 0 symbols
      else
        match dynSymLoop mem base strtab (correct_address base it.d_ptr) WORD_MOD 0 symbols with
        | .error f => .error f
        | .ok _ => .error Fault.hang
    else symtabScan mem base sym_cnt strtab symbols rest

/-- The body of the loop over the program headers, for one header. -/
def collectSymbolsFromProgramHeader (mem : Memory) (info : dl_phdr_info) (phdr : ElfPhdr)
    (symbols : List SymbolIndex.Symbol) : Except Fault (List SymbolIndex.Symbol) :=
  if phdr.p_type ≠ PT_DYNAMIC then .ok symbols
  else
    let dyn_begin := (info.dlpi_addr + phdr.p_vaddr) % ADDR_MOD
    match symCntScan mem info.dlpi_addr (mem.dyn dyn_begin) with
    | .error f => .error f
    | .ok sym_cnt =>
      if sym_cnt = 0 then .ok symbols
      else
        let strtab := strtabScan info.dlpi_addr (mem.dyn dyn_begin)
        if strtab = 0 then .ok symbols
        else symtabScan mem info.dlpi_addr sym_cnt strtab symbols (mem.dyn dyn_begin)

/-- The loop over the program headers `dlpi_phdr[header_index ..]`. -/
def collectSymbolsFromProgramHeadersFrom (mem : Memory) (info : dl_phdr_info) :
    List ElfPhdr → List SymbolIndex.Symbol → Except Fault (List SymbolIndex.Symbol)
  | [], symbols => .ok symbols
  | phdr :: rest, symbols =>
    match collectSymbolsFromProgramHeader mem info phdr symbols with
    | .error f => .error f
    | .ok symbols1 => collectSymbolsFromProgramHeadersFrom mem info rest symbols1

/-- The live-header extractor. -/
def collectSymbolsFromProgramHeaders (mem : Memory) (info : dl_phdr_info)
    (symbols : List SymbolIndex.Symbol) : Except Fault (List SymbolIndex.Symbol) :=
  collectSymbolsFromProgramHeadersFrom mem info info.dlpi_phdr symbols

/-! ## On-disk extractor -/

/-- The loop of `collectSymbolsFromELFSymbolTable` over the entries of the
symbol table section, from `symbol_table_entry` up to `symbol_table_end`. The
first argument bounds the number of entries left. -/
def elfSymLoop (mem : Memory) (base strings elf_end symbol_table_end : Nat) :
    Nat → Nat → List SymbolIndex.Symbol → List SymbolIndex.Symbol
  | 0, _, symbols => symbols
  | fuel + 1, symbol_table_entry, symbols =>
    if symbol_table_entry < symbol_table_end then
      let entry := mem.readSym symbol_table_entry
      if entry.st_name = 0 ∨ entry.st_value = 0 ∨ entry.st_size = 0
          ∨ strings + entry.st_name ≥ elf_end then
        elfSymLoop mem base strings elf_end symbol_table_end fuel
          (symbol_table_entry + SIZEOF_SYM) symbols
      else
        let symbol_name := strings + entry.st_name
        if symbol_name = 0 then
          elfSymLoop mem base strings elf_end symbol_table_end fuel
            (symbol_table_entry + SIZEOF_SYM) symbols
        else
          let symbol : SymbolIndex.Symbol :=
            { address_begin := (base + entry.st_value) % ADDR_MOD
              address_end := (base + entry.st_value + entry.st_size) % ADDR_MOD
              name := mem.cstr symbol_name }
          elfSymLoop mem base strings elf_end symbol_table_end fuel
            (symbol_table_entry + SIZEOF_SYM) (symbols ++ [symbol])
    else symbols

/-- The extraction from one symbol table section and its string table. -/
def collectSymbolsFromELFSymbolTable (mem : Memory) (info : dl_phdr_info) (elf : Elf)
    (symbol_table string_table : Elf.Section) (symbols : List SymbolIndex.Symbol) :
    List SymbolIndex.Symbol :=
  elfSymLoop mem info.dlpi_addr string_table.begin_ elf.end_ symbol_table.end_
    (symbol_table.end_ - symbol_table.begin_) symbol_table.begin_ symbols

/-- The predicate that `searchAndCollectSymbolsFromELFSymbolTable` hands to
`iterateSections`; its state is the pair `(symbol_table, string_table)`. -/
def searchSectionsPred (section_header_type : Nat) (string_table_name : String)
    (section_ : Elf.Section) (_idx : Nat) (st : Option Elf.Section × Option Elf.Section) :
    Bool × (Option Elf.Section × Option Elf.Section) :=
  let st1 : Option Elf.Section × Option Elf.Section :=
    if section_.sh_type = section_header_type then (some section_, st.2)
    else if section_.sh_type = SHT_STRTAB ∧ section_.name = string_table_name then
      (st.1, some section_)
    else st
  if st1.1.isSome ∧ st1.2.isSome then (true, st1) else (false, st1)

/-- Search of the symbol table and string table sections, then extraction. -/
def searchAndCollectSymbolsFromELFSymbolTable (mem : Memory) (info : dl_phdr_info) (elf : Elf)
    (section_header_type : Nat) (string_table_name : String)
    (symbols : List SymbolIndex.Symbol) : Bool × List SymbolIndex.Symbol :=
  match elf.iterateSections (searchSectionsPred section_header_type string_table_name)
      (none, none) with
  | (true, (some symbol_table, some string_table)) =>
    (true, collectSymbolsFromELFSymbolTable mem info elf symbol_table string_table symbols)
  | _ => (false, symbols)

/-- The on-disk extractor: one `Object` record for the file behind the loaded
object and the symbols of its `.symtab`. The constructor of `Elf` is called
outside any `try`, so what it throws leaves the function. -/
def collectSymbolsFromELF (host : Host) (info : dl_phdr_info)
    (symbols : List SymbolIndex.Symbol) (objects : List SymbolIndex.Object) :
    Except Fault (List SymbolIndex.Symbol × List SymbolIndex.Object) :=
  let object_name := if info.dlpi_name.isEmpty then "/proc/self/exe" else info.dlpi_name
  match host.canonical object_name with
  | none => .ok (symbols, objects)
  | some canonical_path =>
    let debug_info_path := host.path_append "/usr/lib/debug" canonical_path
    let object_name := if host.file_exists debug_info_path then debug_info_path else canonical_path
    match host.open_elf object_name with
    | .error what => .error (Fault.exception what)
    | .ok elf =>
      let object : SymbolIndex.Object :=
        { elf := elf
          address_begin := info.dlpi_addr
          address_end := (info.dlpi_addr + elf.size) % ADDR_MOD
          name := object_name }
      .ok ((searchAndCollectSymbolsFromELFSymbolTable host.mem info elf SHT_SYMTAB ".strtab"
              symbols).2, objects ++ [object])

/-! ## Enumeration -/

/-- The callback given to `dl_iterate_phdr`: both extractors, then `0` to go on. -/
def collectSymbols (host : Host) (info : dl_phdr_info) (data : SymbolIndex.Data) :
    Except Fault (Nat × SymbolIndex.Data) :=
  match collectSymbolsFromProgramHeaders host.mem info data.symbols with
  | .error f => .error f
  | .ok symbols1 =>
    match collectSymbolsFromELF host info symbols1 data.objects with
    | .error f => .error f
    | .ok (symbols2, objects2) => .ok (0, { symbols := symbols2, objects := objects2 })

/-- The enumerator `dl_iterate_phdr` of the C library: the callback is called
for each loaded object in turn, until one call returns a value other than `0`. -/
def dl_iterate_phdr (callback : dl_phdr_info → SymbolIndex.Data → Except Fault (Nat × SymbolIndex.Data)) :
    List dl_phdr_info → SymbolIndex.Data → Except Fault SymbolIndex.Data
  | [], data => .ok data
  | info :: rest, data =>
    match callback info data with
    | .error f => .error f
    | .ok (ret, data1) => if ret ≠ 0 then .ok data1 else dl_iterate_phdr callback rest data1

/-! ## Library algorithms -/

/-- One step of the insertion sort: `x` is put in front of the first element
that does not compare less than `x`. -/
def sortInsert {T : Type} (comp : T → T → Bool) (x : T) : List T → List T
  | [] => [x]
  | y :: ys => if comp y x then y :: sortInsert comp x ys else x :: y :: ys

/-- The algorithm `std::sort(first, last, comp)` as an insertion sort. Elements
that `comp` does not order keep their relative order, which `std::sort` itself
leaves unspecified; `SymbolIndex.updateWith` is the rebuild with any
`std::sort`. -/
def sort {T : Type} (comp : T → T → Bool) (l : List T) : List T :=
  l.foldr (sortInsert comp) []

/-- The loop of `std::unique`: `dest` is the last element kept so far. -/
def uniqueLoop {T : Type} (pred : T → T → Bool) : T → List T → List T
  | _, [] => []
  | dest, x :: xs => if pred dest x then uniqueLoop pred dest xs else x :: uniqueLoop pred x xs

/-- The algorithm `std::unique(first, last, pred)` followed by `erase` of the
tail: of each run of consecutive elements equal under `pred` the first is kept. -/
def unique {T : Type} (pred : T → T → Bool) : List T → List T
  | [] => []
  | x :: xs => x :: uniqueLoop pred x xs

/-- The loop of `std::lower_bound(first, last, value, comp)` on the positions
`first .. first + len` of `vec`; `comp` is already applied to `value`. The
first argument bounds the number of halvings. -/
def lowerBoundLoop {T : Type} (comp : T → Bool) (vec : List T) : Nat → Nat → Nat → Nat
  | 0, first, _ => first
  | fuel + 1, first, len =>
    if len = 0 then first
    else
      let half := len / 2
      let middle := first + half
      match vec[middle]? with
      | none => first
      | some x =>
        if comp x then lowerBoundLoop comp vec fuel (middle + 1) (len - half - 1)
        else lowerBoundLoop comp vec fuel first half

/-- The algorithm `std::lower_bound` over the whole of `vec`: the position of
the first element for which `comp` is false, `vec.length` without one. -/
def lower_bound {T : Type} (comp : T → Bool) (vec : List T) : Nat :=
  lowerBoundLoop comp vec vec.length 0 vec.length

/-! ## Range lookup and rebuild -/

/-- The template `find`: the entry whose range holds `address`, `none` for the
null pointer. -/
def find {T : Type} [AddressRange T] (address : Nat) (vec : List T) : Option T :=
  let it := lower_bound (fun symbol => decide (AddressRange.address_begin symbol ≤ address)) vec
  if it = 0 then none
  else
    match vec[it - 1]? with
    | none => none
    | some entry =>
      if address ≥ AddressRange.address_begin entry ∧ address < AddressRange.address_end entry
      then some entry
      else none

/-- The comparator of both calls of `std::sort` in `update`. -/
def beginLess {T : Type} [AddressRange T] (a b : T) : Bool :=
  decide (AddressRange.address_begin a < AddressRange.address_begin b)

/-- The predicate of `std::unique` in `update`. -/
def sameRange (a b : SymbolIndex.Symbol) : Bool :=
  decide (a.address_begin = b.address_begin ∧ a.address_end = b.address_end)

/-- The rebuild `SymbolIndex::update`, with the insertion sort `sort` as
`std::sort`: the enumeration appends to the two lists of the index as they are,
then both are sorted and the symbols made unique. -/
def SymbolIndex.update (host : Host) (index : SymbolIndex) : Except Fault SymbolIndex :=
  match dl_iterate_phdr (collectSymbols host) host.loaded index.data with
  | .error f => .error f
  | .ok data =>
    .ok { data :=
            { objects := sort beginLess data.objects
              symbols := unique sameRange (sort beginLess data.symbols) } }

/-- The rebuild `SymbolIndex::update` with the two calls of `std::sort` left
open: `sortObjects` and `sortSymbols` are what the library's `std::sort` does,
with the comparator of `update`, to the object list and to the symbol list. -/
def SymbolIndex.updateWith (sortObjects : List SymbolIndex.Object → List SymbolIndex.Object)
    (sortSymbols : List SymbolIndex.Symbol → List SymbolIndex.Symbol)
    (host : Host) (index : SymbolIndex) : Except Fault SymbolIndex :=
  match dl_iterate_phdr (collectSymbols host) host.loaded index.data with
  | .error f => .error f
  | .ok data =>
    .ok { data :=
            { objects := sortObjects data.objects
              symbols := unique sameRange (sortSymbols data.symbols) } }

/-- The lookup `SymbolIndex::findSymbol`. -/
def SymbolIndex.findSymbol (index : SymbolIndex) (address : Nat) : Option SymbolIndex.Symbol :=
  find address index.data.symbols

/-- The lookup `SymbolIndex::findObject`. -/
def SymbolIndex.findObject (index : SymbolIndex) (address : Nat) : Option SymbolIndex.Object :=
  find address index.data.objects

/-! ## Predicates of the specification -/

/-- The list is ascending by `address_begin`: of any two entries the earlier one
does not begin after the later one. -/
def SortedByBegin {T : Type} [AddressRange T] (vec : List T) : Prop :=
  vec.Pairwise (fun x y => AddressRange.address_begin x ≤ AddressRange.address_begin y)

/-- What the C++ standard asks of `std::sort` with the comparator of `update`:
the result is a permutation of the input and is ascending by `address_begin`.
The order of the entries of equal `address_begin` is left open. -/
def ConformingSort {T : Type} [AddressRange T] (stdSort : List T → List T) : Prop :=
  ∀ l, (stdSort l).Perm l ∧ SortedByBegin (stdSort l)

/-- Every range `[address_begin, address_end)` of the list has an address. -/
def NonEmptyRanges {T : Type} [AddressRange T] (vec : List T) : Prop :=
  ∀ e ∈ vec, AddressRange.address_begin e < AddressRange.address_end e

/-- The ranges of any two entries of the list are disjoint. -/
def NonOverlapping {T : Type} [AddressRange T] (vec : List T) : Prop :=
  vec.Pairwise (fun x y =>
    AddressRange.address_end x ≤ AddressRange.address_begin y
      ∨ AddressRange.address_end y ≤ AddressRange.address_begin x)

/-- The size `address_end - address_begin` of a symbol, as a machine word. -/
def SymbolIndex.Symbol.size (s : SymbolIndex.Symbol) : Nat :=
  (s.address_end + ADDR_MOD - s.address_begin) % ADDR_MOD

/-- The symbol `s` is what both extractors build from the symbol table entry
`entry` of an object loaded at `base`, and the entry has a size. -/
def BuiltFrom (base : Nat) (entry : ElfSym) (s : SymbolIndex.Symbol) : Prop :=
  entry.st_size ≠ 0 ∧ entry.st_size < ADDR_MOD
    ∧ s.address_begin = (base + entry.st_value) % ADDR_MOD
    ∧ s.address_end = (base + entry.st_value + entry.st_size) % ADDR_MOD

/-- The lists of `d` followed by those of `e`. -/
def SymbolIndex.Data.append (d e : SymbolIndex.Data) : SymbolIndex.Data :=
  { symbols := d.symbols ++ e.symbols, objects := d.objects ++ e.objects }

/-- The two empty lists. -/
def SymbolIndex.Data.empty : SymbolIndex.Data := { symbols := [], objects := [] }

/-! ## A process to evaluate the code on

Three shared libraries. `libfoo.so` is loaded at `0x1000`; its dynamic section
at `0x1800` has a classic hash table of three symbols, and its file, `0x2000`
bytes mapped at `0x100000`, has a `.symtab` with `foo` again and the local
`baz`. `libbar.so` is loaded at `0x4000`, has no dynamic segment, and its file
lists `hi` before `lo`. The file of `libbad.so` is not an ELF file. -/

/-- The memory of the example process; `second` is the entry of index 2 of the
dynamic symbol table of `libfoo.so`. -/
def exampleMemory (second : ElfSym) : Memory where
  limit := 0x300000
  word := fun a => if a = 0x1204 then 3 else 0
  dyn := fun a =>
    if a = 0x1800 then [⟨DT_HASH, 0x200⟩, ⟨DT_STRTAB, 0x300⟩, ⟨DT_SYMTAB, 0x400⟩] else []
  sym := fun a =>
    if a = 0x1418 then ⟨1, 0x100, 0x20⟩
    else if a = 0x1430 then second
    else if a = 0x100418 then ⟨1, 0x100, 0x20⟩
    else if a = 0x100430 then ⟨9, 0x200, 0x40⟩
    else if a = 0x200418 then ⟨1, 0x40, 8⟩
    else if a = 0x200430 then ⟨4, 0x10, 8⟩
    else ⟨0, 0, 0⟩
  cstr := fun a =>
    if a = 0x1301 then "foo"
    else if a = 0x1305 then "bar"
    else if a = 0x100801 then "foo"
    else if a = 0x100809 then "baz"
    else if a = 0x200801 then "hi"
    else if a = 0x200804 then "lo"
    else ""

/-- The descriptor of `libfoo.so`. -/
def libfoo : dl_phdr_info :=
  { dlpi_addr := 0x1000, dlpi_name := "libfoo.so", dlpi_phdr := [⟨1, 0⟩, ⟨PT_DYNAMIC, 0x800⟩] }

/-- The descriptor of `libbar.so`. -/
def libbar : dl_phdr_info :=
  { dlpi_addr := 0x4000, dlpi_name := "libbar.so", dlpi_phdr := [⟨1, 0⟩] }

/-- The descriptor of `libbad.so`. -/
def libbad : dl_phdr_info :=
  { dlpi_addr := 0x8000, dlpi_name := "libbad.so", dlpi_phdr := [⟨1, 0⟩] }

/-- The opened file of `libfoo.so`. -/
def libfooElf : Elf :=
  { mapped := 0x100000, size := 0x2000,
    sections := [⟨SHT_SYMTAB, ".symtab", 0x100400, 0x100448⟩,
                 ⟨SHT_STRTAB, ".strtab", 0x100800, 0x100810⟩] }

/-- The opened file of `libbar.so`. -/
def libbarElf : Elf :=
  { mapped := 0x200000, size := 0x1000,
    sections := [⟨SHT_STRTAB, ".strtab", 0x200800, 0x200808⟩,
                 ⟨SHT_SYMTAB, ".symtab", 0x200400, 0x200448⟩] }

/-- The example process with the given loaded objects. -/
def exampleHost (second : ElfSym) (loaded : List dl_phdr_info) : Host where
  mem := exampleMemory second
  loaded := loaded
  canonical := fun path =>
    if path = "libfoo.so" then some "/usr/lib/libfoo.so"
    else if path = "libbar.so" then some "/usr/lib/libbar.so"
    else if path = "libbad.so" then some "/usr/lib/libbad.so"
    else none
  file_exists := fun _ => false
  path_append := fun p q => p ++ q
  open_elf := fun path =>
    if path = "/usr/lib/libfoo.so" then .ok libfooElf
    else if path = "/usr/lib/libbar.so" then .ok libbarElf
    else .error "The ELF file is invalid"

/-- The dynamic symbol `bar` at `[0x1120, 0x1130)`, right after `foo`. -/
def barEntry : ElfSym := ⟨5, 0x120, 0x10⟩

/-- A dynamic symbol `bar` that begins where `foo` begins and is longer. -/
def barOverFoo : ElfSym := ⟨5, 0x100, 0x40⟩

/-- The symbol `foo` of `libfoo.so`. -/
def fooSymbol : SymbolIndex.Symbol := ⟨0x1100, 0x1120, "foo"⟩

/-- The object record of `libfoo.so`. -/
def libfooObject : SymbolIndex.Object :=
  { address_begin := 0x1000, address_end := 0x3000, name := "/usr/lib/libfoo.so",
    elf := libfooElf }

/-- The object record of `libbar.so`. -/
def libbarObject : SymbolIndex.Object :=
  { address_begin := 0x4000, address_end := 0x5000, name := "/usr/lib/libbar.so",
    elf := libbarElf }

/-- The index after one `update` of the process that has loaded `libfoo.so`. -/
def libfooIndex : SymbolIndex :=
  { data :=
      { symbols := [fooSymbol, ⟨0x1120, 0x1130, "bar"⟩, ⟨0x1200, 0x1240, "baz"⟩]
        objects := [libfooObject] } }

/-- What the enumeration of `libfoo.so` appends to empty lists: the two dynamic
symbols, then the two symbols of the file. -/
def libfooEnumerated : SymbolIndex.Data :=
  { symbols := [fooSymbol, ⟨0x1120, 0x1130, "bar"⟩, fooSymbol, ⟨0x1200, 0x1240, "baz"⟩]
    objects := [libfooObject] }

/-- The index after a second `update` of the process that has loaded `libfoo.so`. -/
def libfooTwiceIndex : SymbolIndex :=
  { data := { symbols := libfooIndex.data.symbols, objects := [libfooObject, libfooObject] } }

/-- The index after one `update` when the dynamic symbol `bar` begins where
`foo` begins: `foo` is there twice. -/
def barOverFooIndex : SymbolIndex :=
  { data :=
      { symbols := [fooSymbol, ⟨0x1100, 0x1140, "bar"⟩, fooSymbol, ⟨0x1200, 0x1240, "baz"⟩]
        objects := [libfooObject] } }

/-- What the enumeration of `libbar.so` appends to empty lists. -/
def libbarEnumerated : SymbolIndex.Data :=
  { symbols := [⟨0x4040, 0x4048, "hi"⟩, ⟨0x4010, 0x4018, "lo"⟩]
    objects := [libbarObject] }

/-- The index after one `update` of the process that has loaded `libfoo.so`
and `libbar.so`. -/
def libfooLibbarIndex : SymbolIndex :=
  { data :=
      { symbols := libfooIndex.data.symbols ++ [⟨0x4010, 0x4018, "lo"⟩, ⟨0x4040, 0x4048, "hi"⟩]
        objects := [libfooObject, libbarObject] } }

/-- The linear reference of the lookup, in the words of the specification: the
candidate is the last entry, in list order, with `address_begin ≤ address`; it
is returned when `address < address_end`, and nothing is found otherwise or
without a candidate. -/
def findLinear {T : Type} [AddressRange T] (address : Nat) (vec : List T) : Option T :=
  match (vec.filter (fun e => decide (AddressRange.address_begin e ≤ address))).getLast? with
  | none => none
  | some candidate =>
    if address < AddressRange.address_end candidate then some candidate else none

/-- The same reference with the candidate taken as the entry just before the
first entry with `address_begin > address`. -/
def findStepBack {T : Type} [AddressRange T] (address : Nat) (vec : List T) : Option T :=
  match (vec.takeWhile
      (fun e => decide (¬ AddressRange.address_begin e > address))).getLast? with
  | none => none
  | some candidate =>
    if address < AddressRange.address_end candidate then some candidate else none

/-- The first entries of the runs of neighbours that `pred` holds together:
an entry is kept when `pred` does not hold between the entry just before it
(`prev`) and itself. -/
def runHeadsFrom {T : Type} (pred : T → T → Bool) : T → List T → List T
  | _, [] => []
  | prev, x :: xs =>
    if pred prev x then runHeadsFrom pred x xs else x :: runHeadsFrom pred x xs

/-- The first entry of each run of neighbours that `pred` holds together. -/
def runHeads {T : Type} (pred : T → T → Bool) : List T → List T
  | [] => []
  | x :: xs => x :: runHeadsFrom pred x xs

/-- Two symbols whose ranges overlap without being the same range. -/
def overlapSymbols : List SymbolIndex.Symbol := [⟨10, 100, "outer"⟩, ⟨20, 30, "inner"⟩]

/-- The entries of a dynamic section that come before its terminator. -/
def beforeTerminator (dyn : List ElfDyn) : List ElfDyn :=
  dyn.takeWhile (fun it => decide (it.d_tag ≠ DT_NULL))

/-- The first entry with the tag `tag` before the terminator of a dynamic
section, `none` when the section has no such tag. -/
def firstTag (tag : Int) (dyn : List ElfDyn) : Option ElfDyn :=
  (beforeTerminator dyn).find? (fun it => decide (it.d_tag = tag))

/-- The first hash-table entry, classic or GNU, before the terminator of a
dynamic section, `none` when the section has neither tag. -/
def firstHashTag (dyn : List ElfDyn) : Option ElfDyn :=
  (beforeTerminator dyn).find? (fun it => decide (it.d_tag = DT_HASH ∨ it.d_tag = DT_GNU_HASH))

/-- The symbol that the specification gives for the entry at address `p` of an
on-disk symbol table, `none` for an entry that it skips: the name offset, the
value and the size are not zero and the name lies before the end of the file. -/
def onDiskSymbolOf (mem : Memory) (base strings elf_end : Nat) (p : Nat) :
    Option SymbolIndex.Symbol :=
  if (mem.readSym p).st_name ≠ 0 ∧ (mem.readSym p).st_value ≠ 0 ∧ (mem.readSym p).st_size ≠ 0
      ∧ strings + (mem.readSym p).st_name < elf_end then
    some { address_begin := (base + (mem.readSym p).st_value) % ADDR_MOD
           address_end :=
             (base + (mem.readSym p).st_value + (mem.readSym p).st_size) % ADDR_MOD
           name := mem.cstr (strings + (mem.readSym p).st_name) }
  else none

/-- The addresses of the entries of a symbol table section, in table order:
one every `SIZEOF_SYM` bytes from `begin()`, as long as it lies before `end()`. -/
def Elf.Section.entryAddresses (section_ : Elf.Section) : List Nat :=
  (List.range ((section_.end_ - section_.begin_ + (SIZEOF_SYM - 1)) / SIZEOF_SYM)).map
    (fun i => section_.begin_ + SIZEOF_SYM * i)

/-- The memory of a process whose dynamic section `dyn` lies at `0x1800`. The
dynamic symbol table at `0x1400` has three entries: the null symbol, `foo` and
`bar`. Three hash tables describe symbol tables: the classic table at `0x1200`
(`nchain = 3`); the GNU table at `0x1240` for the same three symbols (one
bucket, first hashed symbol `1`, one bloom word, a chain of two words for `foo`
and `bar`); and the GNU table at `0x1280` for five symbols (two buckets that
start at the symbols `1` and `3`, first hashed symbol `1`, chains of two words
each). -/
def hashMemory (dyn : List ElfDyn) : Memory where
  limit := 0x300000
  word := fun a =>
    if a = 0x1200 then 1 else if a = 0x1204 then 3
    else if a = 0x1240 then 1 else if a = 0x1244 then 1 else if a = 0x1248 then 1
    else if a = 0x124c then 6
    else if a = 0x1258 then 1
    else if a = 0x125c then 0x10 else if a = 0x1260 then 0x21
    else if a = 0x1280 then 2 else if a = 0x1284 then 1 else if a = 0x1288 then 1
    else if a = 0x128c then 6
    else if a = 0x1298 then 1 else if a = 0x129c then 3
    else if a = 0x12a0 then 0x10 else if a = 0x12a4 then 0x21
    else if a = 0x12a8 then 0x30 else if a = 0x12ac then 0x41
    else 0
  dyn := fun a => if a = 0x1800 then dyn else []
  sym := fun a =>
    if a = 0x1418 then ⟨1, 0x100, 0x20⟩
    else if a = 0x1430 then ⟨5, 0x120, 0x10⟩
    else ⟨0, 0, 0⟩
  cstr := fun a => if a = 0x1301 then "foo" else if a = 0x1305 then "bar" else ""

/-- A descriptor of an object loaded at `0x1000` whose dynamic segment is at
`0x1800`. -/
def libhash : dl_phdr_info :=
  { dlpi_addr := 0x1000, dlpi_name := "libhash.so", dlpi_phdr := [⟨1, 0⟩, ⟨PT_DYNAMIC, 0x800⟩] }

/-- A GNU hash table comes first in the dynamic section, a classic one second. -/
def gnuThenClassic : List ElfDyn :=
  [⟨DT_GNU_HASH, 0x240⟩, ⟨DT_HASH, 0x200⟩, ⟨DT_STRTAB, 0x300⟩, ⟨DT_SYMTAB, 0x400⟩]

/-- A dynamic section with the GNU hash table of the three symbols only. -/
def gnuOnly : List ElfDyn :=
  [⟨DT_GNU_HASH, 0x240⟩, ⟨DT_STRTAB, 0x300⟩, ⟨DT_SYMTAB, 0x400⟩]

/-- A dynamic section with the classic hash table of the three symbols only. -/
def classicOnly : List ElfDyn :=
  [⟨DT_HASH, 0x200⟩, ⟨DT_STRTAB, 0x300⟩, ⟨DT_SYMTAB, 0x400⟩]

/-- The live-header extraction for one `PT_DYNAMIC` header, with every address
that it reads spelled out. The dynamic section is read at `base + p_vaddr`
(modulo `2 ^ 64`); the address of the hash table, of the string table and of
the symbol table is the `d_ptr` of the first entry with the tag, taken as it is
when it is greater than the base and added to the base otherwise. -/
def dynamicHeaderReference (mem : Memory) (info : dl_phdr_info) (phdr : ElfPhdr)
    (symbols : List SymbolIndex.Symbol) : Except Fault (List SymbolIndex.Symbol) :=
  let base := info.dlpi_addr
  let corrected := fun (raw : Nat) => if raw > base then raw else (base + raw) % ADDR_MOD
  let dyn := mem.dyn ((base + phdr.p_vaddr) % ADDR_MOD)
  match firstHashTag dyn with
  | none => .ok symbols
  | some hash_entry =>
    match (if hash_entry.d_tag = DT_HASH then mem.readWord (corrected hash_entry.d_ptr + 4)
           else gnuHashSymCnt mem (corrected hash_entry.d_ptr)) with
    | .error f => .error f
    | .ok sym_cnt =>
      if sym_cnt = 0 then .ok symbols
      else
        match firstTag DT_STRTAB dyn with
        | none => .ok symbols
        | some strtab_entry =>
          if corrected strtab_entry.d_ptr = 0 then .ok symbols
          else
            match firstTag DT_SYMTAB dyn with
            | none => .ok symbols
            | some symtab_entry =>
              if sym_cnt < WORD_MOD then
                dynSymLoop mem base (corrected strtab_entry.d_ptr)
                  (corrected symtab_entry.d_ptr) sym_cnt 0 symbols
              else
                match dynSymLoop mem base (corrected strtab_entry.d_ptr)
                    (corrected symtab_entry.d_ptr) WORD_MOD 0 symbols with
                | .error f => .error f
                | .ok _ => .error Fault.hang

/-- The descriptor of `libhash.so` with the absolute address `0x1800` of the
dynamic section as `p_vaddr`. -/
def libhashAbsolute : dl_phdr_info :=
  { dlpi_addr := 0x1000, dlpi_name := "libhash.so", dlpi_phdr := [⟨1, 0⟩, ⟨PT_DYNAMIC, 0x1800⟩] }

/-- A dynamic section with a classic hash table and a symbol table, without a
string table. -/
def noStrtab : List ElfDyn := [⟨DT_HASH, 0x200⟩, ⟨DT_SYMTAB, 0x400⟩]

/-- A dynamic section without a string table whose hash table entry points
beyond the end of the memory of `hashMemory`. -/
def wildHash : List ElfDyn := [⟨DT_HASH, 0x400000⟩]

/-- A `std::sort` that meets the standard and is not stable: a list of more
than two entries comes out with the entries of equal `address_begin` in the
reverse of their order in the input, a shorter list with these entries in
their order. -/
def sortReversingTies {T : Type} [AddressRange T] (l : List T) : List T :=
  if l.length ≤ 2 then sort beginLess l else sort beginLess l.reverse

/-- The memory of a process that has loaded `libalias.so` at `0x1000`. Its
dynamic symbol table has the exported symbol `foo` at `[0x1100, 0x1120)`; the
`.symtab` of its file, mapped at `0x100000`, lists the same range under the
name `foo_impl`. -/
def aliasMemory : Memory where
  limit := 0x300000
  word := fun a => if a = 0x1204 then 2 else 0
  dyn := fun a =>
    if a = 0x1800 then [⟨DT_HASH, 0x200⟩, ⟨DT_STRTAB, 0x300⟩, ⟨DT_SYMTAB, 0x400⟩] else []
  sym := fun a =>
    if a = 0x1418 then ⟨1, 0x100, 0x20⟩
    else if a = 0x100418 then ⟨1, 0x100, 0x20⟩
    else ⟨0, 0, 0⟩
  cstr := fun a =>
    if a = 0x1301 then "foo"
    else if a = 0x100801 then "foo_impl"
    else ""

/-- The descriptor of `libalias.so`. -/
def libalias : dl_phdr_info :=
  { dlpi_addr := 0x1000, dlpi_name := "libalias.so",
    dlpi_phdr := [⟨1, 0⟩, ⟨PT_DYNAMIC, 0x800⟩] }

/-- The opened file of `libalias.so`. -/
def libaliasElf : Elf :=
  { mapped := 0x100000, size := 0x2000,
    sections := [⟨SHT_SYMTAB, ".symtab", 0x100400, 0x100430⟩,
                 ⟨SHT_STRTAB, ".strtab", 0x100800, 0x100810⟩] }

/-- The process that has loaded `libalias.so`. -/
def aliasHost : Host where
  mem := aliasMemory
  loaded := [libalias]
  canonical := fun path => if path = "libalias.so" then some "/usr/lib/libalias.so" else none
  file_exists := fun _ => false
  path_append := fun p q => p ++ q
  open_elf := fun path =>
    if path = "/usr/lib/libalias.so" then .ok libaliasElf
    else .error "The ELF file is invalid"

/-- The object record of `libalias.so`. -/
def libaliasObject : SymbolIndex.Object :=
  { address_begin := 0x1000, address_end := 0x3000, name := "/usr/lib/libalias.so",
    elf := libaliasElf }

/-! ## Lemmas: binary search and lookup -/

theorem lowerBoundLoop_eq {T : Type} (comp : T → Bool) (vec : List T) (k : Nat)
    (hk : ∀ i x, vec[i]? = some x → (comp x = true ↔ i < k)) :
    ∀ fuel first len, len ≤ fuel → first + len ≤ vec.length → first ≤ k → k ≤ first + len →
      lowerBoundLoop comp vec fuel first len = k := by
  intro fuel
  induction fuel with
  | zero =>
    intro first len h1 _ h3 h4
    simp only [lowerBoundLoop]; omega
  | succ fuel ih =>
    intro first len h1 h2 h3 h4
    simp only [lowerBoundLoop]
    by_cases hlen : len = 0
    · simp only [hlen, if_true]; omega
    · simp only [hlen, if_false]
      have hmid : first + len / 2 < vec.length := by omega
      have hget : vec[first + len / 2]? = some (vec[first + len / 2]) := List.getElem?_eq_getElem hmid
      rw [hget]
      simp only
      have hiff := hk _ _ hget
      by_cases hc : comp (vec[first + len / 2]) = true
      · rw [if_pos hc]
        have := hiff.mp hc
        apply ih <;> omega
      · rw [if_neg hc]
        have : ¬ (first + len / 2 < k) := fun h => hc (hiff.mpr h)
        apply ih <;> omega

theorem lower_bound_eq {T : Type} (comp : T → Bool) (vec : List T) (k : Nat) (hle : k ≤ vec.length)
    (hk : ∀ i x, vec[i]? = some x → (comp x = true ↔ i < k)) :
    lower_bound comp vec = k := by
  unfold lower_bound
  apply lowerBoundLoop_eq comp vec k hk <;> omega

/-- In a list sorted by `address_begin` the entries with `address_begin ≤ a` are a prefix. -/
theorem sorted_partition {T : Type} [AddressRange T] (a : Nat) (vec : List T)
    (hs : SortedByBegin vec) :
    ∀ i x, vec[i]? = some x →
      (decide (AddressRange.address_begin x ≤ a) = true ↔
        i < vec.countP (fun y => decide (AddressRange.address_begin y ≤ a))) := by
  induction vec with
  | nil => intro i x h; simp at h
  | cons y ys ih =>
    intro i x h
    have hs2 : SortedByBegin ys := (List.pairwise_cons.mp hs).2
    have hhead := (List.pairwise_cons.mp hs).1
    by_cases hy : AddressRange.address_begin y ≤ a
    · rw [List.countP_cons_of_pos _ _ (by simpa using hy)]
      cases i with
      | zero =>
        simp only [List.getElem?_cons_zero, Option.some.injEq] at h
        subst h
        simp [hy]
      | succ j =>
        simp only [List.getElem?_cons_succ] at h
        rw [ih hs2 j x h]; omega
    · have hzero : ys.countP (fun y => decide (AddressRange.address_begin y ≤ a)) = 0 := by
        rw [List.countP_eq_zero]
        intro z hz
        have := hhead z hz
        simp only [decide_eq_true_eq]; omega
      rw [List.countP_cons_of_neg _ _ (by simpa using hy), hzero]
      have hx : x ∈ y :: ys := List.getElem?_mem h
      have hxa : ¬ AddressRange.address_begin x ≤ a := by
        rcases List.mem_cons.mp hx with rfl | hx
        · exact hy
        · have := hhead x hx; omega
      simp [hxa]

theorem lower_bound_sorted {T : Type} [AddressRange T] (a : Nat) (vec : List T)
    (hs : SortedByBegin vec) :
    lower_bound (fun y => decide (AddressRange.address_begin y ≤ a)) vec
      = vec.countP (fun y => decide (AddressRange.address_begin y ≤ a)) :=
  lower_bound_eq _ vec _ (List.countP_le_length _) (sorted_partition a vec hs)

/-- Whatever the list, an entry returned by `find` is in the list and holds the address. -/
theorem find_some_contains {T : Type} [AddressRange T] (a : Nat) (vec : List T) (e : T)
    (h : find a vec = some e) :
    e ∈ vec ∧ AddressRange.address_begin e ≤ a ∧ a < AddressRange.address_end e := by
  unfold find at h
  simp only at h
  split at h
  · simp at h
  · split at h
    · simp at h
    · rename_i entry hget
      split at h
      · rename_i hc
        simp only [Option.some.injEq] at h
        subst h
        exact ⟨List.getElem?_mem hget, hc.1, hc.2⟩
      · simp at h

/-- On a sorted list `find` looks at the last entry with `address_begin ≤ a` only. -/
theorem find_sorted {T : Type} [AddressRange T] (a : Nat) (vec : List T)
    (hs : SortedByBegin vec) :
    find a vec =
      (if vec.countP (fun y => decide (AddressRange.address_begin y ≤ a)) = 0 then none
       else
         match vec[vec.countP (fun y => decide (AddressRange.address_begin y ≤ a)) - 1]? with
         | none => none
         | some entry =>
           if a ≥ AddressRange.address_begin entry ∧ a < AddressRange.address_end entry
           then some entry else none) := by
  have hlb := lower_bound_sorted a vec hs
  unfold find
  simp only [hlb]

theorem find_contains_of_disjoint {T : Type} [AddressRange T] (a : Nat) (vec : List T)
    (hs : SortedByBegin vec) (hne : NonEmptyRanges vec) (hno : NonOverlapping vec)
    (s : T) (hmem : s ∈ vec) (hb : AddressRange.address_begin s ≤ a)
    (he : a < AddressRange.address_end s) : find a vec = some s := by
  obtain ⟨i, hi⟩ := List.getElem?_of_mem hmem
  have hpart := sorted_partition a vec hs
  have hik := (hpart i s hi).mp (by simpa using hb)
  have hkle := List.countP_le_length (fun y : T => decide (AddressRange.address_begin y ≤ a)) (l := vec)
  rw [find_sorted a vec hs]
  generalize hkdef : vec.countP (fun y => decide (AddressRange.address_begin y ≤ a)) = k at *
  have hk0 : k ≠ 0 := by omega
  rw [if_neg hk0]
  have hlt : k - 1 < vec.length := by omega
  have hget : vec[k - 1]? = some vec[k - 1] := List.getElem?_eq_getElem hlt
  rw [hget]
  simp only
  have hcb : AddressRange.address_begin vec[k - 1] ≤ a := by
    have := (hpart (k - 1) _ hget).mpr (by omega)
    simpa using this
  obtain ⟨hil, his⟩ := List.getElem?_eq_some_iff.mp hi
  by_cases hcase : i = k - 1
  · subst hcase
    rw [his, if_pos ⟨hb, he⟩]
  · exfalso
    have hlt2 : i < k - 1 := by omega
    have h1 := (List.pairwise_iff_getElem.mp hs) i (k - 1) hil hlt hlt2
    have h2 := (List.pairwise_iff_getElem.mp hno) i (k - 1) hil hlt hlt2
    have h3 := hne vec[k - 1] (List.getElem_mem hlt)
    rw [his] at h1 h2
    rcases h2 with h2 | h2 <;> omega

theorem find_none_of_not_contained {T : Type} [AddressRange T] (a : Nat) (vec : List T)
    (h : ∀ s ∈ vec, ¬ (AddressRange.address_begin s ≤ a ∧ a < AddressRange.address_end s)) :
    find a vec = none := by
  cases hf : find a vec with
  | none => rfl
  | some e =>
    have := find_some_contains a vec e hf
    exact absurd ⟨this.2.1, this.2.2⟩ (h e this.1)

theorem find_none_of_before {T : Type} [AddressRange T] (a : Nat) (vec : List T)
    (h : ∀ s ∈ vec, a < AddressRange.address_begin s) : find a vec = none := by
  have hlb : lower_bound (fun y => decide (AddressRange.address_begin y ≤ a)) vec = 0 := by
    apply lower_bound_eq _ vec 0 (Nat.zero_le _)
    intro i x hx
    have := h x (List.getElem?_mem hx)
    simp only [decide_eq_true_eq]; omega
  unfold find
  simp only [hlb, if_true]

/-! ### `sort` -/

theorem sortInsert_perm {T : Type} (comp : T → T → Bool) (x : T) (l : List T) :
    (sortInsert comp x l).Perm (x :: l) := by
  induction l with
  | nil => exact List.Perm.refl _
  | cons y ys ih =>
    simp only [sortInsert]
    split
    · exact ((List.Perm.cons y ih).trans (List.Perm.swap x y ys))
    · exact List.Perm.refl _

theorem sort_perm {T : Type} (comp : T → T → Bool) (l : List T) : (sort comp l).Perm l := by
  induction l with
  | nil => exact List.Perm.refl _
  | cons x xs ih =>
    show (sortInsert comp x (sort comp xs)).Perm (x :: xs)
    exact (sortInsert_perm comp x _).trans (List.Perm.cons x ih)

theorem mem_sort {T : Type} (comp : T → T → Bool) (l : List T) (x : T) :
    x ∈ sort comp l ↔ x ∈ l := (sort_perm comp l).mem_iff

theorem sortInsert_sorted {T : Type} [AddressRange T] (x : T) (l : List T)
    (h : SortedByBegin l) : SortedByBegin (sortInsert beginLess x l) := by
  induction l with
  | nil => exact List.pairwise_singleton _ _
  | cons y ys ih =>
    have hy := List.pairwise_cons.mp h
    simp only [sortInsert]
    split
    · rename_i hc
      have hlt : AddressRange.address_begin y < AddressRange.address_begin x := by
        simpa [beginLess] using hc
      apply List.pairwise_cons.mpr
      refine ⟨?_, ih hy.2⟩
      intro z hz
      rcases List.mem_cons.mp ((sortInsert_perm beginLess x ys).mem_iff.mp hz) with rfl | hz
      · omega
      · exact hy.1 z hz
    · rename_i hc
      have hge : AddressRange.address_begin x ≤ AddressRange.address_begin y := by
        simpa [beginLess] using hc
      apply List.pairwise_cons.mpr
      refine ⟨?_, h⟩
      intro z hz
      rcases List.mem_cons.mp hz with rfl | hz
      · exact hge
      · exact le_trans hge (hy.1 z hz)

theorem sort_sorted {T : Type} [AddressRange T] (l : List T) :
    SortedByBegin (sort beginLess l) := by
  induction l with
  | nil => exact List.Pairwise.nil
  | cons x xs ih => exact sortInsert_sorted x _ ih

/-! ### `unique` -/

theorem uniqueLoop_sublist {T : Type} (pred : T → T → Bool) (d : T) (l : List T) :
    (uniqueLoop pred d l).Sublist l := by
  induction l generalizing d with
  | nil => exact List.Sublist.refl _
  | cons x xs ih =>
    simp only [uniqueLoop]
    split
    · exact (ih d).trans (List.sublist_cons_self x xs)
    · exact (ih x).cons₂ x

theorem unique_sublist {T : Type} (pred : T → T → Bool) (l : List T) :
    (unique pred l).Sublist l := by
  cases l with
  | nil => exact List.Sublist.refl _
  | cons x xs => exact (uniqueLoop_sublist pred x xs).cons₂ x

theorem unique_sorted {T : Type} [AddressRange T] (pred : T → T → Bool) (l : List T)
    (h : SortedByBegin l) : SortedByBegin (unique pred l) :=
  List.Pairwise.sublist (unique_sublist pred l) h

theorem uniqueLoop_id {T : Type} (pred : T → T → Bool) (d : T) (l : List T)
    (hd : ∀ x ∈ l, pred d x = false) (hl : l.Pairwise (fun x y => pred x y = false)) :
    uniqueLoop pred d l = l := by
  induction l generalizing d with
  | nil => rfl
  | cons x xs ih =>
    have hx := List.pairwise_cons.mp hl
    simp only [uniqueLoop, hd x (List.mem_cons_self x xs)]
    simp only [Bool.false_eq_true, if_false]
    rw [ih x hx.1 hx.2]

/-- Without two entries of the same range `unique` removes nothing. -/
theorem unique_id {T : Type} (pred : T → T → Bool) (l : List T)
    (hl : l.Pairwise (fun x y => pred x y = false)) : unique pred l = l := by
  cases l with
  | nil => rfl
  | cons x xs =>
    have hx := List.pairwise_cons.mp hl
    simp only [unique]
    rw [uniqueLoop_id pred x xs hx.1 hx.2]

theorem uniqueLoop_cons_pos {T : Type} (pred : T → T → Bool) (d x : T) (l : List T)
    (h : pred d x = true) : uniqueLoop pred d (x :: l) = uniqueLoop pred d l := by
  simp only [uniqueLoop, h, if_true]

theorem uniqueLoop_cons_neg {T : Type} (pred : T → T → Bool) (d x : T) (l : List T)
    (h : ¬ pred d x = true) : uniqueLoop pred d (x :: l) = x :: uniqueLoop pred x l := by
  simp only [uniqueLoop, h, Bool.false_eq_true, if_false]

/-! ### The extractors only append -/

theorem dynSymLoop_append (mem : Memory) (base strtab elf_sym : Nat) (n i : Nat)
    (symbols : List SymbolIndex.Symbol) :
    dynSymLoop mem base strtab elf_sym n i symbols
      = (dynSymLoop mem base strtab elf_sym n i []).map (fun added => symbols ++ added) := by
  induction n generalizing i symbols with
  | zero => simp [dynSymLoop, Except.map]
  | succ n ih =>
    simp only [dynSymLoop]
    cases mem.loadSym (elf_sym + SIZEOF_SYM * i) with
    | error f => rfl
    | ok entry =>
      simp only []
      split
      · exact ih _ _
      · split
        · exact ih _ _
        · rw [ih (i + 1) (symbols ++ _), ih (i + 1) ([] ++ _)]
          cases dynSymLoop mem base strtab elf_sym n (i + 1) [] with
          | error f => rfl
          | ok added => simp [Except.map]

theorem symtabScan_append (mem : Memory) (base sym_cnt strtab : Nat)
    (symbols : List SymbolIndex.Symbol) (dyn : List ElfDyn) :
    symtabScan mem base sym_cnt strtab symbols dyn
      = (symtabScan mem base sym_cnt strtab [] dyn).map (fun added => symbols ++ added) := by
  induction dyn with
  | nil => simp [symtabScan, Except.map]
  | cons it rest ih =>
    simp only [symtabScan]
    split
    · simp [Except.map]
    · split
      · split
        · exact dynSymLoop_append _ _ _ _ _ _ _
        · rw [dynSymLoop_append]
          cases dynSymLoop mem base strtab (correct_address base it.d_ptr) WORD_MOD 0 [] with
          | error f => rfl
          | ok added => rfl
      · exact ih

theorem collectSymbolsFromProgramHeader_append (mem : Memory) (info : dl_phdr_info)
    (phdr : ElfPhdr) (symbols : List SymbolIndex.Symbol) :
    collectSymbolsFromProgramHeader mem info phdr symbols
      = (collectSymbolsFromProgramHeader mem info phdr []).map (fun added => symbols ++ added) := by
  simp only [collectSymbolsFromProgramHeader]
  split
  · simp [Except.map]
  · split
    · simp [Except.map]
    · split
      · simp [Except.map]
      · split
        · simp [Except.map]
        · exact symtabScan_append _ _ _ _ _ _

theorem collectSymbolsFromProgramHeadersFrom_append (mem : Memory) (info : dl_phdr_info)
    (phdrs : List ElfPhdr) (symbols : List SymbolIndex.Symbol) :
    collectSymbolsFromProgramHeadersFrom mem info phdrs symbols
      = (collectSymbolsFromProgramHeadersFrom mem info phdrs []).map
          (fun added => symbols ++ added) := by
  induction phdrs generalizing symbols with
  | nil => simp [collectSymbolsFromProgramHeadersFrom, Except.map]
  | cons phdr rest ih =>
    simp only [collectSymbolsFromProgramHeadersFrom]
    rw [collectSymbolsFromProgramHeader_append]
    cases h : collectSymbolsFromProgramHeader mem info phdr [] with
    | error f => simp [Except.map]
    | ok added1 =>
      simp only [Except.map]
      rw [ih (symbols ++ added1), ih added1]
      cases h2 : collectSymbolsFromProgramHeadersFrom mem info rest [] with
      | error f => simp [Except.map]
      | ok added2 => simp [Except.map]

theorem collectSymbolsFromProgramHeaders_append (mem : Memory) (info : dl_phdr_info)
    (symbols : List SymbolIndex.Symbol) :
    collectSymbolsFromProgramHeaders mem info symbols
      = (collectSymbolsFromProgramHeaders mem info []).map (fun added => symbols ++ added) :=
  collectSymbolsFromProgramHeadersFrom_append mem info info.dlpi_phdr symbols

theorem elfSymLoop_append (mem : Memory) (base strings elf_end symbol_table_end : Nat)
    (fuel p : Nat) (symbols : List SymbolIndex.Symbol) :
    elfSymLoop mem base strings elf_end symbol_table_end fuel p symbols
      = symbols ++ elfSymLoop mem base strings elf_end symbol_table_end fuel p [] := by
  induction fuel generalizing p symbols with
  | zero => simp [elfSymLoop]
  | succ n ih =>
    simp only [elfSymLoop]
    split
    · split
      · exact ih _ _
      · split
        · exact ih _ _
        · rw [ih _ (symbols ++ _), ih _ ([] ++ _)]
          simp
    · simp

theorem collectSymbolsFromELFSymbolTable_append (mem : Memory) (info : dl_phdr_info) (elf : Elf)
    (symbol_table string_table : Elf.Section) (symbols : List SymbolIndex.Symbol) :
    collectSymbolsFromELFSymbolTable mem info elf symbol_table string_table symbols
      = symbols ++ collectSymbolsFromELFSymbolTable mem info elf symbol_table string_table [] :=
  elfSymLoop_append _ _ _ _ _ _ _ _

theorem searchAndCollect_append (mem : Memory) (info : dl_phdr_info) (elf : Elf)
    (section_header_type : Nat) (string_table_name : String)
    (symbols : List SymbolIndex.Symbol) :
    (searchAndCollectSymbolsFromELFSymbolTable mem info elf section_header_type
        string_table_name symbols).2
      = symbols ++ (searchAndCollectSymbolsFromELFSymbolTable mem info elf section_header_type
          string_table_name []).2 := by
  simp only [searchAndCollectSymbolsFromELFSymbolTable]
  split
  · simp only
    exact collectSymbolsFromELFSymbolTable_append _ _ _ _ _ _
  · simp

theorem collectSymbolsFromELF_append (host : Host) (info : dl_phdr_info)
    (symbols : List SymbolIndex.Symbol) (objects : List SymbolIndex.Object) :
    collectSymbolsFromELF host info symbols objects
      = (collectSymbolsFromELF host info [] []).map
          (fun added => (symbols ++ added.1, objects ++ added.2)) := by
  simp only [collectSymbolsFromELF]
  split
  · simp [Except.map]
  · split
    · simp [Except.map]
    · simp only [Except.map, List.nil_append]
      rw [searchAndCollect_append]

theorem collectSymbols_append (host : Host) (info : dl_phdr_info) (data : SymbolIndex.Data) :
    collectSymbols host info data
      = (collectSymbols host info SymbolIndex.Data.empty).map
          (fun r => (0, data.append r.2)) := by
  simp only [collectSymbols, SymbolIndex.Data.empty]
  rw [collectSymbolsFromProgramHeaders_append]
  cases h : collectSymbolsFromProgramHeaders host.mem info [] with
  | error f => simp [Except.map]
  | ok added1 =>
    simp only [Except.map]
    rw [collectSymbolsFromELF_append host info (data.symbols ++ added1),
      collectSymbolsFromELF_append host info added1 []]
    cases h2 : collectSymbolsFromELF host info [] [] with
    | error f => simp [Except.map]
    | ok added2 =>
      obtain ⟨s2, o2⟩ := added2
      simp [Except.map, SymbolIndex.Data.append]

theorem collectSymbols_ret (host : Host) (info : dl_phdr_info) (data : SymbolIndex.Data)
    (ret : Nat) (data1 : SymbolIndex.Data) (h : collectSymbols host info data = .ok (ret, data1)) :
    ret = 0 := by
  simp only [collectSymbols] at h
  split at h
  · simp at h
  · split at h
    · simp at h
    · simp only [Except.ok.injEq, Prod.mk.injEq] at h
      exact h.1.symm

theorem Data.append_assoc (a b c : SymbolIndex.Data) :
    (a.append b).append c = a.append (b.append c) := by
  simp [SymbolIndex.Data.append]

theorem Data.append_empty (a : SymbolIndex.Data) : a.append SymbolIndex.Data.empty = a := by
  simp [SymbolIndex.Data.append, SymbolIndex.Data.empty]

/-- The enumeration appends to the lists it is given what it appends to empty lists. -/
theorem dl_iterate_phdr_append (host : Host) (loaded : List dl_phdr_info)
    (data : SymbolIndex.Data) :
    dl_iterate_phdr (collectSymbols host) loaded data
      = (dl_iterate_phdr (collectSymbols host) loaded SymbolIndex.Data.empty).map
          (fun added => data.append added) := by
  induction loaded generalizing data with
  | nil => simp [dl_iterate_phdr, Except.map, Data.append_empty]
  | cons info rest ih =>
    simp only [dl_iterate_phdr]
    rw [collectSymbols_append host info data]
    cases h : collectSymbols host info SymbolIndex.Data.empty with
    | error f => simp [Except.map]
    | ok r =>
      obtain ⟨ret, d1⟩ := r
      have hret := collectSymbols_ret host info _ ret d1 h
      subst hret
      simp only [Except.map, ne_eq, not_true_eq_false, if_false]
      rw [ih (data.append d1), ih d1]
      cases h2 : dl_iterate_phdr (collectSymbols host) rest SymbolIndex.Data.empty with
      | error f => simp [Except.map]
      | ok d2 => simp [Except.map, Data.append_assoc]

theorem readSym_size_lt (mem : Memory) (p : Nat) : (mem.readSym p).st_size < ADDR_MOD := by
  simp only [Memory.readSym, ADDR_MOD]
  exact Nat.mod_lt _ (by norm_num)

theorem builtFrom_size (base : Nat) (entry : ElfSym) (s : SymbolIndex.Symbol)
    (h : BuiltFrom base entry s) :
    0 < entry.st_size ∧ s.size = entry.st_size
      ∧ (base + entry.st_value + entry.st_size < ADDR_MOD → s.address_begin < s.address_end) := by
  obtain ⟨h0, hlt, hb, he⟩ := h
  simp only [SymbolIndex.Symbol.size, hb, he]
  simp only [ADDR_MOD] at *
  norm_num at *
  refine ⟨by omega, by omega, by omega⟩

theorem loadSym_ok (mem : Memory) (a : Nat) (e : ElfSym) (h : mem.loadSym a = .ok e) :
    a < mem.limit ∧ e = mem.readSym a := by
  unfold Memory.loadSym at h
  split at h
  · rename_i hl
    simp only [Except.ok.injEq] at h
    exact ⟨hl, h.symm⟩
  · simp at h

theorem dynSymLoop_builtFrom (mem : Memory) (base strtab elf_sym : Nat) (n i : Nat)
    (out : List SymbolIndex.Symbol)
    (h : dynSymLoop mem base strtab elf_sym n i [] = .ok out) :
    ∀ s ∈ out, ∃ p, BuiltFrom base (mem.readSym p) s := by
  induction n generalizing i out with
  | zero =>
    simp only [dynSymLoop, Except.ok.injEq] at h
    subst h; intro s hs; simp at hs
  | succ n ih =>
    simp only [dynSymLoop] at h
    cases hload : mem.loadSym (elf_sym + SIZEOF_SYM * i) with
    | error f => rw [hload] at h; simp at h
    | ok entry =>
      rw [hload] at h
      simp only [] at h
      obtain ⟨_, hentry⟩ := loadSym_ok mem _ _ hload
      split at h
      · exact ih _ _ h
      · rename_i hsize
        split at h
        · exact ih _ _ h
        · rw [dynSymLoop_append] at h
          cases hrest : dynSymLoop mem base strtab elf_sym n (i + 1) [] with
          | error f => rw [hrest] at h; simp [Except.map] at h
          | ok added =>
            rw [hrest] at h
            simp only [Except.map, Except.ok.injEq] at h
            subst h
            intro s hs
            rcases List.mem_append.mp hs with hs | hs
            · simp only [List.nil_append, List.mem_singleton] at hs
              subst hs
              subst hentry
              exact ⟨_, hsize, readSym_size_lt mem _, rfl, rfl⟩
            · exact ih _ _ hrest s hs

/-! ## Lemmas: the rebuild -/

theorem update_of_enumeration (host : Host) (index : SymbolIndex) (acc : SymbolIndex.Data)
    (h : dl_iterate_phdr (collectSymbols host) host.loaded index.data = .ok acc) :
    SymbolIndex.update host index
      = .ok { data :=
                { objects := sort beginLess acc.objects
                  symbols := unique sameRange (sort beginLess acc.symbols) } } := by
  unfold SymbolIndex.update
  rw [h]

/-- When `update` returns, so did the enumeration. -/
theorem enumeration_of_update (host : Host) (index index1 : SymbolIndex)
    (h : SymbolIndex.update host index = .ok index1) :
    ∃ acc, dl_iterate_phdr (collectSymbols host) host.loaded index.data = .ok acc
      ∧ index1.data.objects = sort beginLess acc.objects
      ∧ index1.data.symbols = unique sameRange (sort beginLess acc.symbols) := by
  unfold SymbolIndex.update at h
  cases hacc : dl_iterate_phdr (collectSymbols host) host.loaded index.data with
  | error f => rw [hacc] at h; simp at h
  | ok acc =>
    rw [hacc] at h
    simp only [Except.ok.injEq] at h
    subst h
    exact ⟨acc, rfl, rfl, rfl⟩

/-- Entries with non-empty disjoint ranges do not share a range. -/
theorem sameRange_false_of_disjoint (l : List SymbolIndex.Symbol)
    (hne : NonEmptyRanges l) (hno : NonOverlapping l) :
    l.Pairwise (fun x y => sameRange x y = false) := by
  refine List.Pairwise.imp_of_mem ?_ hno
  intro x y hx hy hxy
  have h1 : x.address_begin < x.address_end := hne x hx
  have h2 : y.address_begin < y.address_end := hne y hy
  have hxy2 : x.address_end ≤ y.address_begin ∨ y.address_end ≤ x.address_begin := hxy
  simp only [sameRange, decide_eq_false_iff_not, not_and]
  intro hb _
  omega

theorem nonOverlapping_perm {T : Type} [AddressRange T] (l1 l2 : List T) (hp : l1.Perm l2)
    (h : NonOverlapping l1) : NonOverlapping l2 :=
  (List.Perm.pairwise_iff (fun hxy => Or.symm hxy) hp).mp h

/-! ## Lemmas: every extracted symbol comes from an entry with a size -/

theorem symtabScan_builtFrom (mem : Memory) (base sym_cnt strtab : Nat) (dyn : List ElfDyn)
    (out : List SymbolIndex.Symbol) (h : symtabScan mem base sym_cnt strtab [] dyn = .ok out) :
    ∀ s ∈ out, ∃ p, BuiltFrom base (mem.readSym p) s := by
  induction dyn with
  | nil =>
    simp only [symtabScan, Except.ok.injEq] at h
    subst h; intro s hs; simp at hs
  | cons it rest ih =>
    simp only [symtabScan] at h
    split at h
    · simp only [Except.ok.injEq] at h
      subst h; intro s hs; simp at hs
    · split at h
      · split at h
        · exact dynSymLoop_builtFrom mem base strtab _ sym_cnt 0 out h
        · split at h <;> simp at h
      · exact ih h

theorem collectSymbolsFromProgramHeader_builtFrom (mem : Memory) (info : dl_phdr_info)
    (phdr : ElfPhdr) (out : List SymbolIndex.Symbol)
    (h : collectSymbolsFromProgramHeader mem info phdr [] = .ok out) :
    ∀ s ∈ out, ∃ p, BuiltFrom info.dlpi_addr (mem.readSym p) s := by
  simp only [collectSymbolsFromProgramHeader] at h
  split at h
  · simp only [Except.ok.injEq] at h
    subst h; intro s hs; simp at hs
  · split at h
    · simp at h
    · split at h
      · simp only [Except.ok.injEq] at h
        subst h; intro s hs; simp at hs
      · split at h
        · simp only [Except.ok.injEq] at h
          subst h; intro s hs; simp at hs
        · exact symtabScan_builtFrom mem _ _ _ _ out h

theorem collectSymbolsFromProgramHeadersFrom_builtFrom (mem : Memory) (info : dl_phdr_info)
    (phdrs : List ElfPhdr) (out : List SymbolIndex.Symbol)
    (h : collectSymbolsFromProgramHeadersFrom mem info phdrs [] = .ok out) :
    ∀ s ∈ out, ∃ p, BuiltFrom info.dlpi_addr (mem.readSym p) s := by
  induction phdrs generalizing out with
  | nil =>
    simp only [collectSymbolsFromProgramHeadersFrom, Except.ok.injEq] at h
    subst h; intro s hs; simp at hs
  | cons phdr rest ih =>
    simp only [collectSymbolsFromProgramHeadersFrom] at h
    cases h1 : collectSymbolsFromProgramHeader mem info phdr [] with
    | error f => rw [h1] at h; simp at h
    | ok added1 =>
      rw [h1] at h
      simp only at h
      rw [collectSymbolsFromProgramHeadersFrom_append] at h
      cases h2 : collectSymbolsFromProgramHeadersFrom mem info rest [] with
      | error f => rw [h2] at h; simp [Except.map] at h
      | ok added2 =>
        rw [h2] at h
        simp only [Except.map, Except.ok.injEq] at h
        subst h
        intro s hs
        rcases List.mem_append.mp hs with hs | hs
        · exact collectSymbolsFromProgramHeader_builtFrom mem info phdr added1 h1 s hs
        · exact ih added2 h2 s hs

theorem elfSymLoop_builtFrom (mem : Memory) (base strings elf_end symbol_table_end : Nat)
    (fuel p : Nat) :
    ∀ s ∈ elfSymLoop mem base strings elf_end symbol_table_end fuel p [],
      ∃ q, BuiltFrom base (mem.readSym q) s := by
  induction fuel generalizing p with
  | zero => intro s hs; simp [elfSymLoop] at hs
  | succ n ih =>
    intro s hs
    simp only [elfSymLoop] at hs
    split at hs
    · split at hs
      · exact ih _ s hs
      · rename_i hskip
        split at hs
        · exact ih _ s hs
        · rw [elfSymLoop_append] at hs
          rcases List.mem_append.mp hs with hs | hs
          · simp only [List.nil_append, List.mem_singleton] at hs
            subst hs
            refine ⟨p, ?_, readSym_size_lt mem _, rfl, rfl⟩
            intro h0
            exact hskip (Or.inr (Or.inr (Or.inl h0)))
          · exact ih _ s hs
    · simp at hs

theorem searchAndCollect_builtFrom (mem : Memory) (info : dl_phdr_info) (elf : Elf)
    (section_header_type : Nat) (string_table_name : String) :
    ∀ s ∈ (searchAndCollectSymbolsFromELFSymbolTable mem info elf section_header_type
        string_table_name []).2, ∃ q, BuiltFrom info.dlpi_addr (mem.readSym q) s := by
  intro s hs
  simp only [searchAndCollectSymbolsFromELFSymbolTable] at hs
  split at hs
  · exact elfSymLoop_builtFrom mem _ _ _ _ _ _ s hs
  · simp at hs

theorem collectSymbolsFromELF_builtFrom (host : Host) (info : dl_phdr_info)
    (out : List SymbolIndex.Symbol × List SymbolIndex.Object)
    (h : collectSymbolsFromELF host info [] [] = .ok out) :
    ∀ s ∈ out.1, ∃ q, BuiltFrom info.dlpi_addr (host.mem.readSym q) s := by
  simp only [collectSymbolsFromELF] at h
  split at h
  · simp only [Except.ok.injEq] at h
    subst h; intro s hs; simp at hs
  · split at h
    · simp at h
    · simp only [Except.ok.injEq] at h
      subst h
      exact searchAndCollect_builtFrom host.mem info _ _ _

theorem collectSymbols_builtFrom (host : Host) (info : dl_phdr_info) (ret : Nat)
    (data1 : SymbolIndex.Data)
    (h : collectSymbols host info SymbolIndex.Data.empty = .ok (ret, data1)) :
    ∀ s ∈ data1.symbols, ∃ q, BuiltFrom info.dlpi_addr (host.mem.readSym q) s := by
  simp only [collectSymbols, SymbolIndex.Data.empty] at h
  cases h1 : collectSymbolsFromProgramHeaders host.mem info [] with
  | error f => rw [h1] at h; simp at h
  | ok added1 =>
    rw [h1] at h
    simp only at h
    rw [collectSymbolsFromELF_append] at h
    cases h2 : collectSymbolsFromELF host info [] [] with
    | error f => rw [h2] at h; simp [Except.map] at h
    | ok added2 =>
      rw [h2] at h
      simp only [Except.map, Except.ok.injEq, Prod.mk.injEq] at h
      obtain ⟨_, hd⟩ := h
      subst hd
      intro s hs
      rcases List.mem_append.mp hs with hs | hs
      · exact collectSymbolsFromProgramHeadersFrom_builtFrom host.mem info _ added1 h1 s hs
      · exact collectSymbolsFromELF_builtFrom host info added2 h2 s hs

theorem dl_iterate_phdr_builtFrom (host : Host) (loaded : List dl_phdr_info)
    (acc : SymbolIndex.Data)
    (h : dl_iterate_phdr (collectSymbols host) loaded SymbolIndex.Data.empty = .ok acc) :
    ∀ s ∈ acc.symbols, ∃ info ∈ loaded, ∃ q, BuiltFrom info.dlpi_addr (host.mem.readSym q) s := by
  induction loaded generalizing acc with
  | nil =>
    simp only [dl_iterate_phdr, Except.ok.injEq] at h
    subst h; intro s hs; simp [SymbolIndex.Data.empty] at hs
  | cons info rest ih =>
    simp only [dl_iterate_phdr] at h
    cases h1 : collectSymbols host info SymbolIndex.Data.empty with
    | error f => rw [h1] at h; simp at h
    | ok r =>
      obtain ⟨ret, d1⟩ := r
      have hret := collectSymbols_ret host info _ ret d1 h1
      subst hret
      rw [h1] at h
      simp only [ne_eq, not_true_eq_false, if_false] at h
      rw [dl_iterate_phdr_append] at h
      cases h2 : dl_iterate_phdr (collectSymbols host) rest SymbolIndex.Data.empty with
      | error f => rw [h2] at h; simp [Except.map] at h
      | ok d2 =>
        rw [h2] at h
        simp only [Except.map, Except.ok.injEq] at h
        subst h
        intro s hs
        rcases List.mem_append.mp hs with hs | hs
        · obtain ⟨q, hq⟩ := collectSymbols_builtFrom host info 0 d1 h1 s hs
          exact ⟨info, List.mem_cons_self _ _, q, hq⟩
        · obtain ⟨i, hi, q, hq⟩ := ih d2 h2 s hs
          exact ⟨i, List.mem_cons_of_mem _ hi, q, hq⟩

theorem update_builtFrom (host : Host) (index : SymbolIndex)
    (h : SymbolIndex.update host {} = .ok index) :
    ∀ s ∈ index.data.symbols,
      ∃ info ∈ host.loaded, ∃ q, BuiltFrom info.dlpi_addr (host.mem.readSym q) s := by
  obtain ⟨acc, hacc, _, hsym⟩ := enumeration_of_update host {} index h
  intro s hs
  rw [hsym] at hs
  have hs2 : s ∈ acc.symbols :=
    (mem_sort beginLess acc.symbols s).mp ((unique_sublist _ _).subset hs)
  exact dl_iterate_phdr_builtFrom host host.loaded acc hacc s hs2

/-! ## Facts about the example process -/

theorem libfooIndex_symbols_sorted : SortedByBegin libfooIndex.data.symbols := by
  unfold SortedByBegin; decide

theorem libfooIndex_symbols_nonempty : NonEmptyRanges libfooIndex.data.symbols := by
  unfold NonEmptyRanges; decide

theorem libfooIndex_symbols_disjoint : NonOverlapping libfooIndex.data.symbols := by
  unfold NonOverlapping; decide

theorem libfooIndex_objects_sorted : SortedByBegin libfooIndex.data.objects := by
  unfold SortedByBegin; decide

theorem libfooIndex_objects_nonempty : NonEmptyRanges libfooIndex.data.objects := by
  unfold NonEmptyRanges; decide

theorem libfooIndex_objects_disjoint : NonOverlapping libfooIndex.data.objects := by
  unfold NonOverlapping; decide

/-! ## The claims -/

/-- Claim C1: range lookup is correct on well-formed snapshots. On a list that
is sorted by `address_begin` and whose ranges are non-empty and pairwise
disjoint, `find` (which `findSymbol` runs on the symbol list and `findObject`
on the object list) returns the entry whose range holds the address whenever
the list has one, and not-found whenever no entry of the list holds it. -/
theorem C1_lookup_correct_on_disjoint_ranges {T : Type} [AddressRange T] (vec : List T)
    (a : Nat) (hsorted : SortedByBegin vec) (hnonempty : NonEmptyRanges vec)
    (hdisjoint : NonOverlapping vec) :
    (∀ s ∈ vec, AddressRange.address_begin s ≤ a → a < AddressRange.address_end s →
        find a vec = some s)
    ∧ ((∀ s ∈ vec, ¬ (AddressRange.address_begin s ≤ a ∧ a < AddressRange.address_end s)) →
        find a vec = none) :=
  ⟨fun s hs hb he => find_contains_of_disjoint a vec hsorted hnonempty hdisjoint s hs hb he,
   fun h => find_none_of_not_contained a vec h⟩

/-- The scenario of claim C1: the object at base `0x1000` with image size
`0x2000` is found at `0x1500` and nothing is found at `0x3000`; the symbol `foo`
at `[0x1100, 0x1120)` is found at `0x1110`. -/
theorem C1_lookup_correct_on_disjoint_ranges_witness :
    libfooIndex.findObject 0x1500 = some libfooObject
    ∧ libfooIndex.findObject 0x3000 = none
    ∧ libfooIndex.findSymbol 0x1110 = some fooSymbol :=
  ⟨(C1_lookup_correct_on_disjoint_ranges libfooIndex.data.objects 0x1500
      libfooIndex_objects_sorted libfooIndex_objects_nonempty
      libfooIndex_objects_disjoint).1 libfooObject (by decide) (by decide) (by decide),
   (C1_lookup_correct_on_disjoint_ranges libfooIndex.data.objects 0x3000
      libfooIndex_objects_sorted libfooIndex_objects_nonempty
      libfooIndex_objects_disjoint).2 (by decide),
   (C1_lookup_correct_on_disjoint_ranges libfooIndex.data.symbols 0x1110
      libfooIndex_symbols_sorted libfooIndex_symbols_nonempty
      libfooIndex_symbols_disjoint).1 fooSymbol (by decide) (by decide) (by decide)⟩

/-- Claim C2: the end of a range is exclusive and lookup never returns an entry
that does not hold the query. Whatever the lists of the index (sorted or not,
overlapping or not), an entry returned by `findSymbol` or `findObject` is an
entry of the list with `address_begin ≤ a < address_end`; hence a lookup of
`s.address_end` never returns `s`. -/
theorem C2_lookup_result_holds_address (index : SymbolIndex) (a : Nat) :
    (∀ e, index.findSymbol a = some e →
        e ∈ index.data.symbols ∧ e.address_begin ≤ a ∧ a < e.address_end)
    ∧ (∀ e, index.findObject a = some e →
        e ∈ index.data.objects ∧ e.address_begin ≤ a ∧ a < e.address_end)
    ∧ (∀ s : SymbolIndex.Symbol, index.findSymbol s.address_end ≠ some s)
    ∧ (∀ o : SymbolIndex.Object, index.findObject o.address_end ≠ some o) := by
  refine ⟨?_, ?_, ?_, ?_⟩
  · intro e h
    exact find_some_contains a _ e h
  · intro e h
    exact find_some_contains a _ e h
  · intro s h
    have := (find_some_contains s.address_end _ s h).2.2
    exact absurd this (Nat.lt_irrefl _)
  · intro o h
    have := (find_some_contains o.address_end _ o h).2.2
    exact absurd this (Nat.lt_irrefl _)

/-- The scenario of claim C2: a lookup of `0x1120`, the end of `foo`, does not
return `foo`. -/
theorem C2_lookup_result_holds_address_witness :
    libfooIndex.findSymbol 0x1120 ≠ some fooSymbol :=
  (C2_lookup_result_holds_address libfooIndex 0x1120).2.2.1 fooSymbol

/-- Claim C9: an address below every `address_begin` of a list is not found,
whatever the `address_end` values and the order of the list; in particular
nothing is found in the empty lists that the index has before its first
`update`. -/
theorem C9_address_below_all_entries (index : SymbolIndex) (a : Nat) :
    ((∀ s ∈ index.data.symbols, a < s.address_begin) → index.findSymbol a = none)
    ∧ ((∀ o ∈ index.data.objects, a < o.address_begin) → index.findObject a = none)
    ∧ ({} : SymbolIndex).findSymbol a = none
    ∧ ({} : SymbolIndex).findObject a = none := by
  refine ⟨?_, ?_, ?_, ?_⟩
  · intro h
    exact find_none_of_before a _ h
  · intro h
    exact find_none_of_before a _ h
  · exact find_none_of_before a _ (fun s hs => absurd hs (List.not_mem_nil s))
  · exact find_none_of_before a _ (fun s hs => absurd hs (List.not_mem_nil s))

/-- An instance of claim C9: nothing is found at `0x500`, below `libfoo.so`. -/
theorem C9_address_below_all_entries_witness :
    libfooIndex.findSymbol 0x500 = none ∧ libfooIndex.findObject 0x500 = none :=
  ⟨(C9_address_below_all_entries libfooIndex 0x500).1 (by decide),
   (C9_address_below_all_entries libfooIndex 0x500).2.1 (by decide)⟩

/-- Claim C5 fails on the code. Both extractors report `foo` at
`[0x1100, 0x1120)`, and the live-header extractor also reports `bar` at
`[0x1100, 0x1140)`. The sort compares `address_begin` only, so `bar` stays
between the two `foo`, `std::unique` finds no two neighbours of the same range,
and the snapshot holds `foo` twice. -/
theorem C5_same_range_survives_twice :
    collectSymbolsFromProgramHeaders (exampleMemory barOverFoo) libfoo []
        = .ok [fooSymbol, ⟨0x1100, 0x1140, "bar"⟩]
    ∧ (searchAndCollectSymbolsFromELFSymbolTable (exampleMemory barOverFoo) libfoo libfooElf
        SHT_SYMTAB ".strtab" []).2 = [fooSymbol, ⟨0x1200, 0x1240, "baz"⟩]
    ∧ SymbolIndex.update (exampleHost barOverFoo [libfoo]) {} = .ok barOverFooIndex
    ∧ barOverFooIndex.data.symbols.count fooSymbol = 2 := by
  refine ⟨by rfl, by rfl, by rfl, by decide⟩

/-- Claim C6: sortedness of the snapshot. Whatever object list and symbol list
the enumeration has accumulated, `update` returns, both lists of the new
snapshot are ascending by `address_begin` (for consecutive entries and hence
for any two entries), the object list is a permutation of the accumulated
objects, and the symbol list is the sorted accumulated list made unique, which
is sorted before and after the removal of duplicates. -/
theorem C6_snapshot_sorted_by_begin (host : Host) (index : SymbolIndex)
    (acc : SymbolIndex.Data)
    (henum : dl_iterate_phdr (collectSymbols host) host.loaded index.data = .ok acc) :
    ∃ index2, SymbolIndex.update host index = .ok index2
      ∧ List.Chain' (fun x y => x.address_begin ≤ y.address_begin) index2.data.objects
      ∧ List.Chain' (fun x y => x.address_begin ≤ y.address_begin) index2.data.symbols
      ∧ SortedByBegin index2.data.objects
      ∧ SortedByBegin index2.data.symbols
      ∧ index2.data.objects.Perm acc.objects
      ∧ SortedByBegin (sort beginLess acc.symbols)
      ∧ index2.data.symbols = unique sameRange (sort beginLess acc.symbols) := by
  refine ⟨_, update_of_enumeration host index acc henum, ?_, ?_, ?_, ?_, ?_, ?_, rfl⟩
  · exact List.Pairwise.chain' (sort_sorted acc.objects)
  · exact List.Pairwise.chain' (unique_sorted sameRange _ (sort_sorted acc.symbols))
  · exact sort_sorted acc.objects
  · exact unique_sorted sameRange _ (sort_sorted acc.symbols)
  · exact sort_perm beginLess acc.objects
  · exact sort_sorted acc.symbols

/-- An instance of claim C6: the process that has loaded `libfoo.so`, whose
enumeration reports `foo`, `bar`, `foo`, `baz`. -/
theorem C6_snapshot_sorted_by_begin_witness :
    dl_iterate_phdr (collectSymbols (exampleHost barEntry [libfoo]))
        (exampleHost barEntry [libfoo]).loaded ({} : SymbolIndex).data = .ok libfooEnumerated
    ∧ ∃ index2, SymbolIndex.update (exampleHost barEntry [libfoo]) {} = .ok index2
      ∧ List.Chain' (fun x y => x.address_begin ≤ y.address_begin) index2.data.objects
      ∧ List.Chain' (fun x y => x.address_begin ≤ y.address_begin) index2.data.symbols
      ∧ SortedByBegin index2.data.objects
      ∧ SortedByBegin index2.data.symbols
      ∧ index2.data.objects.Perm libfooEnumerated.objects
      ∧ SortedByBegin (sort beginLess libfooEnumerated.symbols)
      ∧ index2.data.symbols = unique sameRange (sort beginLess libfooEnumerated.symbols) :=
  ⟨by rfl,
   C6_snapshot_sorted_by_begin (exampleHost barEntry [libfoo]) {} libfooEnumerated (by rfl)⟩

/-- Claim C7: lookup after `update` does not depend on the insertion order.
When the symbols that the enumeration appends to the empty index are, in any
order, the symbols of a list with non-empty and pairwise disjoint ranges, then
`update` returns and `findSymbol` finds each symbol of the list at every
address of its range. -/
theorem C7_lookup_independent_of_insertion_order (host : Host)
    (l : List SymbolIndex.Symbol) (acc : SymbolIndex.Data)
    (henum : dl_iterate_phdr (collectSymbols host) host.loaded { symbols := [], objects := [] }
      = .ok acc)
    (hperm : acc.symbols.Perm l) (hne : NonEmptyRanges l) (hno : NonOverlapping l) :
    ∃ index, SymbolIndex.update host {} = .ok index
      ∧ ∀ s ∈ l, ∀ a, s.address_begin ≤ a → a < s.address_end →
          index.findSymbol a = some s := by
  refine ⟨_, update_of_enumeration host {} acc henum, ?_⟩
  intro s hs a hb he
  have hp : (sort beginLess acc.symbols).Perm l := (sort_perm beginLess acc.symbols).trans hperm
  have hne2 : NonEmptyRanges (sort beginLess acc.symbols) :=
    fun e hmem => hne e (hp.mem_iff.mp hmem)
  have hno2 : NonOverlapping (sort beginLess acc.symbols) := nonOverlapping_perm _ _ hp.symm hno
  have hid : unique sameRange (sort beginLess acc.symbols) = sort beginLess acc.symbols :=
    unique_id sameRange _ (sameRange_false_of_disjoint _ hne2 hno2)
  show find a (unique sameRange (sort beginLess acc.symbols)) = some s
  rw [hid]
  exact find_contains_of_disjoint a _ (sort_sorted acc.symbols) hne2 hno2 s
    (hp.mem_iff.mpr hs) hb he

/-- An instance of claim C7: the file of `libbar.so` lists `hi` before `lo`, and
both are found. -/
theorem C7_lookup_independent_of_insertion_order_witness :
    dl_iterate_phdr (collectSymbols (exampleHost barEntry [libbar]))
        (exampleHost barEntry [libbar]).loaded { symbols := [], objects := [] }
      = .ok libbarEnumerated
    ∧ ∃ index, SymbolIndex.update (exampleHost barEntry [libbar]) {} = .ok index
      ∧ ∀ s ∈ [(⟨0x4010, 0x4018, "lo"⟩ : SymbolIndex.Symbol), ⟨0x4040, 0x4048, "hi"⟩],
          ∀ a, s.address_begin ≤ a → a < s.address_end → index.findSymbol a = some s :=
  ⟨by rfl,
   C7_lookup_independent_of_insertion_order (exampleHost barEntry [libbar])
     [⟨0x4010, 0x4018, "lo"⟩, ⟨0x4040, 0x4048, "hi"⟩] libbarEnumerated (by rfl)
     (List.Perm.swap _ _ _) (by unfold NonEmptyRanges; decide)
     (by unfold NonOverlapping; decide)⟩

/-- Claim C8 fails on the code. The constructor of `Elf` is called outside any
`try`: with the loaded objects `libfoo.so`, `libbad.so` and `libbar.so`, where
the file of `libbad.so` is not an ELF file, the exception leaves `update`, and
no snapshot is built. Had `libbad.so` been skipped, the snapshot would hold the
objects and symbols of the two other libraries. -/
theorem C8_elf_open_failure_aborts_update :
    SymbolIndex.update (exampleHost barEntry [libfoo, libbad, libbar]) {}
        = .error (Fault.exception "The ELF file is invalid")
    ∧ SymbolIndex.update (exampleHost barEntry [libfoo, libbar]) {} = .ok libfooLibbarIndex := by
  refine ⟨by rfl, by rfl⟩

/-- Claim C10: every symbol has a positive size. Each symbol that the
live-header extractor or the on-disk extractor appends is built from a symbol
table entry with `st_size > 0`, its size `address_end - address_begin` modulo
`2 ^ 64` is that `st_size`, and `address_begin < address_end` when
`base + st_value + st_size` does not overflow; so every symbol of a snapshot
that `update` builds from the empty index has a size above `0`. -/
theorem C10_extracted_symbols_have_positive_size (host : Host) :
    (∀ info symbols out, collectSymbolsFromProgramHeaders host.mem info symbols = .ok out →
        ∃ added, out = symbols ++ added ∧ ∀ s ∈ added, ∃ p,
          0 < (host.mem.readSym p).st_size
          ∧ s.size = (host.mem.readSym p).st_size
          ∧ (info.dlpi_addr + (host.mem.readSym p).st_value + (host.mem.readSym p).st_size
                < ADDR_MOD → s.address_begin < s.address_end))
    ∧ (∀ info elf symbol_table string_table symbols,
        ∃ added, collectSymbolsFromELFSymbolTable host.mem info elf symbol_table string_table
            symbols = symbols ++ added ∧ ∀ s ∈ added, ∃ p,
          0 < (host.mem.readSym p).st_size
          ∧ s.size = (host.mem.readSym p).st_size
          ∧ (info.dlpi_addr + (host.mem.readSym p).st_value + (host.mem.readSym p).st_size
                < ADDR_MOD → s.address_begin < s.address_end))
    ∧ (∀ index, SymbolIndex.update host {} = .ok index →
        ∀ s ∈ index.data.symbols, 0 < s.size ∧ s.address_begin ≠ s.address_end) := by
  refine ⟨?_, ?_, ?_⟩
  · intro info symbols out h
    rw [collectSymbolsFromProgramHeaders_append] at h
    cases h1 : collectSymbolsFromProgramHeaders host.mem info [] with
    | error f => rw [h1] at h; simp [Except.map] at h
    | ok added =>
      rw [h1] at h
      simp only [Except.map, Except.ok.injEq] at h
      refine ⟨added, h.symm, ?_⟩
      intro s hs
      obtain ⟨p, hp⟩ :=
        collectSymbolsFromProgramHeadersFrom_builtFrom host.mem info _ added h1 s hs
      exact ⟨p, builtFrom_size _ _ s hp⟩
  · intro info elf symbol_table string_table symbols
    refine ⟨_, collectSymbolsFromELFSymbolTable_append _ _ _ _ _ _, ?_⟩
    intro s hs
    obtain ⟨p, hp⟩ := elfSymLoop_builtFrom host.mem _ _ _ _ _ _ s hs
    exact ⟨p, builtFrom_size _ _ s hp⟩
  · intro index h s hs
    obtain ⟨info, _, q, hq⟩ := update_builtFrom host index h s hs
    have hsz := builtFrom_size _ _ s hq
    have hpos : 0 < s.size := by rw [hsz.2.1]; exact hsz.1
    refine ⟨hpos, ?_⟩
    intro heq
    have : s.size = 0 := by
      simp only [SymbolIndex.Symbol.size, heq, ADDR_MOD]
      rw [Nat.add_sub_cancel_left]
      exact Nat.mod_self _
    omega

/-- An instance of claim C10: the symbols of the snapshot of the process that
has loaded `libfoo.so`. -/
theorem C10_extracted_symbols_have_positive_size_witness :
    SymbolIndex.update (exampleHost barEntry [libfoo]) {} = .ok libfooIndex
    ∧ ∀ s ∈ libfooIndex.data.symbols, 0 < s.size ∧ s.address_begin ≠ s.address_end :=
  ⟨by rfl,
   (C10_extracted_symbols_have_positive_size (exampleHost barEntry [libfoo])).2.2
     libfooIndex (by rfl)⟩

theorem sorted_filter_eq_take {T : Type} [AddressRange T] (a : Nat) (vec : List T)
    (hs : SortedByBegin vec) :
    vec.filter (fun e => decide (AddressRange.address_begin e ≤ a))
      = vec.take (vec.countP (fun e => decide (AddressRange.address_begin e ≤ a))) := by
  induction vec with
  | nil => rfl
  | cons y ys ih =>
    have hy := List.pairwise_cons.mp hs
    by_cases hya : AddressRange.address_begin y ≤ a
    · rw [List.filter_cons_of_pos (by simpa using hya),
        List.countP_cons_of_pos _ _ (by simpa using hya), List.take_succ_cons, ih hy.2]
    · have hnone : ∀ z ∈ ys, ¬ (decide (AddressRange.address_begin z ≤ a) = true) := by
        intro z hz
        have := hy.1 z hz
        simp only [decide_eq_true_eq]; omega
      have hzero : ys.countP (fun e => decide (AddressRange.address_begin e ≤ a)) = 0 :=
        List.countP_eq_zero.mpr hnone
      have hnil : ys.filter (fun e => decide (AddressRange.address_begin e ≤ a)) = [] :=
        List.filter_eq_nil_iff.mpr hnone
      rw [List.filter_cons_of_neg (by simpa using hya),
        List.countP_cons_of_neg _ _ (by simpa using hya), hzero, hnil]
      rfl

theorem sorted_takeWhile_eq_take {T : Type} [AddressRange T] (a : Nat) (vec : List T)
    (hs : SortedByBegin vec) :
    vec.takeWhile (fun e => decide (¬ AddressRange.address_begin e > a))
      = vec.take (vec.countP (fun e => decide (AddressRange.address_begin e ≤ a))) := by
  induction vec with
  | nil => rfl
  | cons y ys ih =>
    have hy := List.pairwise_cons.mp hs
    by_cases hya : AddressRange.address_begin y ≤ a
    · have h1 : decide (¬ AddressRange.address_begin y > a) = true := by
        simp only [decide_eq_true_eq]; omega
      rw [List.takeWhile_cons, if_pos h1,
        List.countP_cons_of_pos _ _ (by simpa using hya), List.take_succ_cons, ih hy.2]
    · have h1 : ¬ decide (¬ AddressRange.address_begin y > a) = true := by
        simp only [decide_eq_true_eq]; omega
      have hnone : ∀ z ∈ ys, ¬ (decide (AddressRange.address_begin z ≤ a) = true) := by
        intro z hz
        have := hy.1 z hz
        simp only [decide_eq_true_eq]; omega
      have hzero : ys.countP (fun e => decide (AddressRange.address_begin e ≤ a)) = 0 :=
        List.countP_eq_zero.mpr hnone
      rw [List.takeWhile_cons, if_neg h1,
        List.countP_cons_of_neg _ _ (by simpa using hya), hzero]
      rfl

theorem getLast?_take_of_pos {T : Type} (vec : List T) (k : Nat) (hk : 0 < k)
    (hle : k ≤ vec.length) : (vec.take k).getLast? = vec[k - 1]? := by
  rw [List.getLast?_eq_getElem?, List.length_take, Nat.min_eq_left hle,
    List.getElem?_take_of_lt (by omega)]

/-- On a sorted list `find` is the step back from the partition point. -/
theorem find_eq_take {T : Type} [AddressRange T] (a : Nat) (vec : List T)
    (hs : SortedByBegin vec) :
    find a vec =
      match (vec.take (vec.countP
          (fun e => decide (AddressRange.address_begin e ≤ a)))).getLast? with
      | none => none
      | some candidate =>
        if a < AddressRange.address_end candidate then some candidate else none := by
  have hpart := sorted_partition a vec hs
  have hkle := List.countP_le_length (fun y : T => decide (AddressRange.address_begin y ≤ a))
    (l := vec)
  rw [find_sorted a vec hs]
  generalize vec.countP (fun y => decide (AddressRange.address_begin y ≤ a)) = k at *
  by_cases hk0 : k = 0
  · subst hk0
    simp
  · rw [if_neg hk0, getLast?_take_of_pos vec k (by omega) hkle]
    have hlt : k - 1 < vec.length := by omega
    have hget : vec[k - 1]? = some vec[k - 1] := List.getElem?_eq_getElem hlt
    rw [hget]
    have hcb : AddressRange.address_begin vec[k - 1] ≤ a := by
      have := (hpart (k - 1) _ hget).mpr (by omega)
      simpa using this
    simp only [ge_iff_le, hcb, true_and]

theorem uniqueLoop_chain {T : Type} (pred : T → T → Bool) (d : T) (l : List T) :
    List.Chain (fun x y => pred x y = false) d (uniqueLoop pred d l) := by
  induction l generalizing d with
  | nil => exact List.Chain.nil
  | cons x xs ih =>
    by_cases hp : pred d x = true
    · rw [uniqueLoop_cons_pos pred d x xs hp]; exact ih d
    · rw [uniqueLoop_cons_neg pred d x xs hp]
      exact List.Chain.cons (by simpa using hp) (ih x)

/-- After `unique` no entry is equal under `pred` to the entry just before it. -/
theorem unique_chain {T : Type} (pred : T → T → Bool) (l : List T) :
    List.Chain' (fun x y => pred x y = false) (unique pred l) := by
  cases l with
  | nil => exact List.chain'_nil
  | cons x xs => exact uniqueLoop_chain pred x xs

theorem sameRange_refl (x : SymbolIndex.Symbol) : sameRange x x = true := by
  simp [sameRange]

theorem sameRange_congr_left (d d2 x : SymbolIndex.Symbol) (h : sameRange d d2 = true) :
    sameRange d x = sameRange d2 x := by
  simp only [sameRange, decide_eq_true_eq] at h
  simp only [sameRange, h.1, h.2]

theorem uniqueLoop_eq_runHeadsFrom (d prev : SymbolIndex.Symbol)
    (l : List SymbolIndex.Symbol) (h : sameRange d prev = true) :
    uniqueLoop sameRange d l = runHeadsFrom sameRange prev l := by
  induction l generalizing d prev with
  | nil => rfl
  | cons x xs ih =>
    have hx := sameRange_congr_left d prev x h
    by_cases hp : sameRange d x = true
    · have hp2 : sameRange prev x = true := by rw [← hx]; exact hp
      rw [uniqueLoop_cons_pos sameRange d x xs hp]
      simp only [runHeadsFrom, hp2, if_true]
      exact ih d x hp
    · have hp2 : ¬ sameRange prev x = true := by rw [← hx]; exact hp
      rw [uniqueLoop_cons_neg sameRange d x xs hp]
      simp only [runHeadsFrom, hp2, Bool.false_eq_true, if_false]
      rw [ih x x (sameRange_refl x)]

/-- What `unique` keeps is the first entry of every run of equal ranges. -/
theorem unique_eq_runHeads (l : List SymbolIndex.Symbol) :
    unique sameRange l = runHeads sameRange l := by
  cases l with
  | nil => rfl
  | cons x xs =>
    show x :: uniqueLoop sameRange x xs = x :: runHeadsFrom sameRange x xs
    rw [uniqueLoop_eq_runHeadsFrom x x xs (sameRange_refl x)]

theorem uniqueLoop_covers (d : SymbolIndex.Symbol) (l : List SymbolIndex.Symbol)
    (x : SymbolIndex.Symbol) (hx : x ∈ l) :
    sameRange d x = true ∨ ∃ t ∈ uniqueLoop sameRange d l, sameRange t x = true := by
  induction l generalizing d with
  | nil => simp at hx
  | cons y ys ih =>
    by_cases hp : sameRange d y = true
    · rw [uniqueLoop_cons_pos sameRange d y ys hp]
      rcases List.mem_cons.mp hx with rfl | hx
      · exact Or.inl hp
      · exact ih d hx
    · rw [uniqueLoop_cons_neg sameRange d y ys hp]
      rcases List.mem_cons.mp hx with rfl | hx
      · exact Or.inr ⟨x, List.mem_cons_self _ _, sameRange_refl x⟩
      · rcases ih y hx with h | ⟨t, ht, hts⟩
        · exact Or.inr ⟨y, List.mem_cons_self _ _, h⟩
        · exact Or.inr ⟨t, List.mem_cons_of_mem _ ht, hts⟩

/-- Every range of the list is the range of an entry that `unique` keeps. -/
theorem unique_covers (l : List SymbolIndex.Symbol) (x : SymbolIndex.Symbol) (hx : x ∈ l) :
    ∃ t ∈ unique sameRange l, t.address_begin = x.address_begin
      ∧ t.address_end = x.address_end := by
  cases l with
  | nil => simp at hx
  | cons y ys =>
    have key : ∃ t ∈ unique sameRange (y :: ys), sameRange t x = true := by
      rcases List.mem_cons.mp hx with rfl | hx
      · exact ⟨x, List.mem_cons_self _ _, sameRange_refl x⟩
      · rcases uniqueLoop_covers y ys x hx with h | ⟨t, ht, hts⟩
        · exact ⟨y, List.mem_cons_self _ _, h⟩
        · exact ⟨t, List.mem_cons_of_mem _ ht, hts⟩
    obtain ⟨t, ht, hts⟩ := key
    simp only [sameRange, decide_eq_true_eq] at hts
    exact ⟨t, ht, hts.1, hts.2⟩

/-- Claim C18: the binary search implements the single-step-back rule. On a
list sorted by `address_begin` (ranges may overlap, `address_begin` may repeat)
`find` returns what the linear reference returns: the last entry in list order
with `address_begin ≤ a`, which is the entry just before the first entry with
`address_begin > a`, when `a` is below its `address_end`, and not-found
otherwise or without such an entry. -/
theorem C18_find_refines_linear_reference {T : Type} [AddressRange T] (vec : List T)
    (a : Nat) (hsorted : SortedByBegin vec) :
    find a vec = findLinear a vec ∧ find a vec = findStepBack a vec := by
  constructor
  · rw [find_eq_take a vec hsorted]
    unfold findLinear
    rw [sorted_filter_eq_take a vec hsorted]
  · rw [find_eq_take a vec hsorted]
    unfold findStepBack
    rw [sorted_takeWhile_eq_take a vec hsorted]

/-- An instance of claim C18: two symbols that begin at `10`; the later one
in list order is the candidate. -/
theorem C18_find_refines_linear_reference_witness :
    find 25 [(⟨10, 20, "a"⟩ : SymbolIndex.Symbol), ⟨10, 30, "b"⟩, ⟨40, 50, "c"⟩]
      = findLinear 25 [(⟨10, 20, "a"⟩ : SymbolIndex.Symbol), ⟨10, 30, "b"⟩, ⟨40, 50, "c"⟩]
    ∧ find 25 [(⟨10, 20, "a"⟩ : SymbolIndex.Symbol), ⟨10, 30, "b"⟩, ⟨40, 50, "c"⟩]
      = findStepBack 25 [(⟨10, 20, "a"⟩ : SymbolIndex.Symbol), ⟨10, 30, "b"⟩, ⟨40, 50, "c"⟩]
    ∧ findLinear 25 [(⟨10, 20, "a"⟩ : SymbolIndex.Symbol), ⟨10, 30, "b"⟩, ⟨40, 50, "c"⟩]
      = some ⟨10, 30, "b"⟩ :=
  ⟨(C18_find_refines_linear_reference _ 25 (by unfold SortedByBegin; decide)).1,
   (C18_find_refines_linear_reference _ 25 (by unfold SortedByBegin; decide)).2,
   by decide⟩

/-- Claim C19: the known overlap edge case. The list `[10, 100)`, `[20, 30)` is
sorted by `address_begin`, its two ranges overlap without being the same range,
the first entry holds the address `50`, and `find` returns not-found for `50`. -/
theorem C19_overlap_hides_containing_entry :
    ∃ (vec : List SymbolIndex.Symbol) (a : Nat),
      vec = overlapSymbols ∧ a = 50
      ∧ SortedByBegin vec
      ∧ ¬ NonOverlapping vec
      ∧ vec.Pairwise (fun x y => ¬ (x.address_begin = y.address_begin
          ∧ x.address_end = y.address_end))
      ∧ (∃ e ∈ vec, e.address_begin ≤ a ∧ a < e.address_end)
      ∧ find a vec = none := by
  refine ⟨overlapSymbols, 50, rfl, rfl, ?_, ?_, ?_, ?_, ?_⟩
  · unfold SortedByBegin; decide
  · unfold NonOverlapping; decide
  · decide
  · exact ⟨⟨10, 100, "outer"⟩, by decide, by decide, by decide⟩
  · decide

/-- Claim C20: the removal of duplicates drops only entries whose range is the
range of the entry just before them, and loses no range. Whatever symbol list
the enumeration has accumulated, the symbol list after `update` is a
subsequence of the accumulated list sorted by `address_begin`; no entry of it
has both `address_begin` and `address_end` of the entry just before it; it is
made of the first entry of every run of neighbours of equal range in the sorted
list; and every range of an accumulated symbol is the range of one of its
entries. -/
theorem C20_dedup_keeps_run_heads (host : Host) (index : SymbolIndex)
    (acc : SymbolIndex.Data)
    (henum : dl_iterate_phdr (collectSymbols host) host.loaded index.data = .ok acc) :
    ∃ index2, SymbolIndex.update host index = .ok index2
      ∧ (sort beginLess acc.symbols).Perm acc.symbols
      ∧ SortedByBegin (sort beginLess acc.symbols)
      ∧ index2.data.symbols.Sublist (sort beginLess acc.symbols)
      ∧ List.Chain' (fun x y => ¬ (x.address_begin = y.address_begin
          ∧ x.address_end = y.address_end)) index2.data.symbols
      ∧ index2.data.symbols = runHeads sameRange (sort beginLess acc.symbols)
      ∧ ∀ s ∈ acc.symbols, ∃ t ∈ index2.data.symbols,
          t.address_begin = s.address_begin ∧ t.address_end = s.address_end := by
  refine ⟨_, update_of_enumeration host index acc henum, sort_perm _ _, sort_sorted _,
    unique_sublist _ _, ?_, unique_eq_runHeads _, ?_⟩
  · refine List.Chain'.imp ?_ (unique_chain sameRange (sort beginLess acc.symbols))
    intro x y hxy
    simpa [sameRange] using hxy
  · intro s hs
    exact unique_covers _ s ((mem_sort beginLess acc.symbols s).mpr hs)

/-- An instance of claim C20: the process that has loaded `libfoo.so`, whose
enumeration reports `foo` twice. -/
theorem C20_dedup_keeps_run_heads_witness :
    dl_iterate_phdr (collectSymbols (exampleHost barEntry [libfoo]))
        (exampleHost barEntry [libfoo]).loaded ({} : SymbolIndex).data = .ok libfooEnumerated
    ∧ ∃ index2, SymbolIndex.update (exampleHost barEntry [libfoo]) {} = .ok index2
      ∧ (sort beginLess libfooEnumerated.symbols).Perm libfooEnumerated.symbols
      ∧ SortedByBegin (sort beginLess libfooEnumerated.symbols)
      ∧ index2.data.symbols.Sublist (sort beginLess libfooEnumerated.symbols)
      ∧ List.Chain' (fun x y => ¬ (x.address_begin = y.address_begin
          ∧ x.address_end = y.address_end)) index2.data.symbols
      ∧ index2.data.symbols = runHeads sameRange (sort beginLess libfooEnumerated.symbols)
      ∧ ∀ s ∈ libfooEnumerated.symbols, ∃ t ∈ index2.data.symbols,
          t.address_begin = s.address_begin ∧ t.address_end = s.address_end :=
  ⟨by rfl, C20_dedup_keeps_run_heads (exampleHost barEntry [libfoo]) {} libfooEnumerated (by rfl)⟩

/-! ## Lemmas: the scans of the dynamic section -/

theorem firstHashTag_cons_null (it : ElfDyn) (rest : List ElfDyn) (h : it.d_tag = DT_NULL) :
    firstHashTag (it :: rest) = none := by
  simp [firstHashTag, beforeTerminator, List.takeWhile_cons, h]

theorem firstHashTag_cons_hash (it : ElfDyn) (rest : List ElfDyn) (h0 : it.d_tag ≠ DT_NULL)
    (h : it.d_tag = DT_HASH ∨ it.d_tag = DT_GNU_HASH) :
    firstHashTag (it :: rest) = some it := by
  simp [firstHashTag, beforeTerminator, List.takeWhile_cons, h0, h]

theorem firstHashTag_cons_other (it : ElfDyn) (rest : List ElfDyn) (h0 : it.d_tag ≠ DT_NULL)
    (h1 : it.d_tag ≠ DT_HASH) (h2 : it.d_tag ≠ DT_GNU_HASH) :
    firstHashTag (it :: rest) = firstHashTag rest := by
  simp [firstHashTag, beforeTerminator, List.takeWhile_cons, h0, h1, h2]

theorem firstTag_cons_null (tag : Int) (it : ElfDyn) (rest : List ElfDyn)
    (h : it.d_tag = DT_NULL) : firstTag tag (it :: rest) = none := by
  simp [firstTag, beforeTerminator, List.takeWhile_cons, h]

theorem firstTag_cons_hit (tag : Int) (it : ElfDyn) (rest : List ElfDyn)
    (h0 : it.d_tag ≠ DT_NULL) (h : it.d_tag = tag) : firstTag tag (it :: rest) = some it := by
  subst h
  simp [firstTag, beforeTerminator, List.takeWhile_cons, h0]

theorem firstTag_cons_other (tag : Int) (it : ElfDyn) (rest : List ElfDyn)
    (h0 : it.d_tag ≠ DT_NULL) (h : it.d_tag ≠ tag) :
    firstTag tag (it :: rest) = firstTag tag rest := by
  simp [firstTag, beforeTerminator, List.takeWhile_cons, h0, h]

/-- The first scan takes the count from the first hash-table tag of the section,
whichever of the two kinds it is. -/
theorem symCntScan_eq (mem : Memory) (base : Nat) (dyn : List ElfDyn) :
    symCntScan mem base dyn =
      match firstHashTag dyn with
      | none => .ok 0
      | some it =>
        if it.d_tag = DT_HASH then
          mem.readWord (correct_address base it.d_ptr + SIZEOF_WORD * 1)
        else gnuHashSymCnt mem (correct_address base it.d_ptr) := by
  induction dyn with
  | nil => rfl
  | cons it rest ih =>
    simp only [symCntScan]
    by_cases h0 : it.d_tag = DT_NULL
    · rw [if_pos h0, firstHashTag_cons_null it rest h0]
    · rw [if_neg h0]
      by_cases h1 : it.d_tag = DT_HASH
      · rw [if_pos h1, firstHashTag_cons_hash it rest h0 (Or.inl h1)]
        simp only [h1, if_true]
      · rw [if_neg h1]
        by_cases h2 : it.d_tag = DT_GNU_HASH
        · rw [if_pos h2, firstHashTag_cons_hash it rest h0 (Or.inr h2)]
          simp only [h1, if_false]
        · rw [if_neg h2, firstHashTag_cons_other it rest h0 h1 h2]
          exact ih

/-- The second scan takes `strtab` from the first `DT_STRTAB` entry. -/
theorem strtabScan_eq (base : Nat) (dyn : List ElfDyn) :
    strtabScan base dyn =
      match firstTag DT_STRTAB dyn with
      | none => 0
      | some it => correct_address base it.d_ptr := by
  induction dyn with
  | nil => rfl
  | cons it rest ih =>
    simp only [strtabScan]
    by_cases h0 : it.d_tag = DT_NULL
    · rw [if_pos h0, firstTag_cons_null _ it rest h0]
    · rw [if_neg h0]
      by_cases h1 : it.d_tag = DT_STRTAB
      · rw [if_pos h1, firstTag_cons_hit _ it rest h0 h1]
      · rw [if_neg h1, firstTag_cons_other _ it rest h0 h1]
        exact ih

/-- The third scan walks the table of the first `DT_SYMTAB` entry. -/
theorem symtabScan_eq (mem : Memory) (base sym_cnt strtab : Nat)
    (symbols : List SymbolIndex.Symbol) (dyn : List ElfDyn) :
    symtabScan mem base sym_cnt strtab symbols dyn =
      match firstTag DT_SYMTAB dyn with
      | none => .ok symbols
      | some it =>
        if sym_cnt < WORD_MOD then
          dynSymLoop mem base strtab (correct_address base it.d_ptr) sym_cnt 0 symbols
        else
          match dynSymLoop mem base strtab (correct_address base it.d_ptr) WORD_MOD 0 symbols with
          | .error f => .error f
          | .ok _ => .error Fault.hang := by
  induction dyn with
  | nil => rfl
  | cons it rest ih =>
    simp only [symtabScan]
    by_cases h0 : it.d_tag = DT_NULL
    · rw [if_pos h0, firstTag_cons_null _ it rest h0]
    · rw [if_neg h0]
      by_cases h1 : it.d_tag = DT_SYMTAB
      · rw [if_pos h1, firstTag_cons_hit _ it rest h0 h1]
      · rw [if_neg h1, firstTag_cons_other _ it rest h0 h1]
        exact ih

theorem collectSymbolsFromProgramHeadersFrom_cons (mem : Memory) (info : dl_phdr_info)
    (phdr : ElfPhdr) (rest : List ElfPhdr) (symbols symbols1 : List SymbolIndex.Symbol)
    (h : collectSymbolsFromProgramHeader mem info phdr symbols = .ok symbols1) :
    collectSymbolsFromProgramHeadersFrom mem info (phdr :: rest) symbols
      = collectSymbolsFromProgramHeadersFrom mem info rest symbols1 := by
  simp only [collectSymbolsFromProgramHeadersFrom, h]

theorem elfSymLoop_eq_filterMap (mem : Memory) (base strings elf_end symbol_table_end : Nat)
    (fuel p : Nat) (symbols : List SymbolIndex.Symbol) (hfuel : symbol_table_end - p ≤ fuel) :
    elfSymLoop mem base strings elf_end symbol_table_end fuel p symbols
      = symbols ++ ((List.range ((symbol_table_end - p + (SIZEOF_SYM - 1)) / SIZEOF_SYM)).map
          (fun i => p + SIZEOF_SYM * i)).filterMap (onDiskSymbolOf mem base strings elf_end) := by
  induction fuel generalizing p symbols with
  | zero =>
    have h0 : (symbol_table_end - p + (SIZEOF_SYM - 1)) / SIZEOF_SYM = 0 := by
      simp only [SIZEOF_SYM]; omega
    simp [elfSymLoop, h0]
  | succ fuel ih =>
    simp only [elfSymLoop]
    by_cases hlt : p < symbol_table_end
    · rw [if_pos hlt]
      have hcount : (symbol_table_end - p + (SIZEOF_SYM - 1)) / SIZEOF_SYM
          = (symbol_table_end - (p + SIZEOF_SYM) + (SIZEOF_SYM - 1)) / SIZEOF_SYM + 1 := by
        simp only [SIZEOF_SYM]; omega
      have hmap : (List.range ((symbol_table_end - p + (SIZEOF_SYM - 1)) / SIZEOF_SYM)).map
            (fun i => p + SIZEOF_SYM * i)
          = p :: (List.range
              ((symbol_table_end - (p + SIZEOF_SYM) + (SIZEOF_SYM - 1)) / SIZEOF_SYM)).map
                (fun i => (p + SIZEOF_SYM) + SIZEOF_SYM * i) := by
        rw [hcount, List.range_succ_eq_map, List.map_cons, List.map_map]
        congr 1
        apply List.map_congr_left
        intro j _
        simp only [Function.comp_apply, SIZEOF_SYM]
        omega
      have hfuel2 : symbol_table_end - (p + SIZEOF_SYM) ≤ fuel := by
        simp only [SIZEOF_SYM]; omega
      rw [hmap, List.filterMap_cons]
      by_cases hskip : (mem.readSym p).st_name = 0 ∨ (mem.readSym p).st_value = 0
          ∨ (mem.readSym p).st_size = 0 ∨ strings + (mem.readSym p).st_name ≥ elf_end
      · rw [if_pos hskip, ih _ _ hfuel2]
        have hnone : onDiskSymbolOf mem base strings elf_end p = none := by
          simp only [onDiskSymbolOf]
          rw [if_neg]
          intro hall
          rcases hskip with h | h | h | h
          · exact hall.1 h
          · exact hall.2.1 h
          · exact hall.2.2.1 h
          · omega
        rw [hnone]
      · rw [if_neg hskip]
        have hall : (mem.readSym p).st_name ≠ 0 ∧ (mem.readSym p).st_value ≠ 0
            ∧ (mem.readSym p).st_size ≠ 0 ∧ strings + (mem.readSym p).st_name < elf_end := by
          refine ⟨fun h => hskip (Or.inl h), fun h => hskip (Or.inr (Or.inl h)),
            fun h => hskip (Or.inr (Or.inr (Or.inl h))), ?_⟩
          by_contra hge
          exact hskip (Or.inr (Or.inr (Or.inr (by omega))))
        have hname : strings + (mem.readSym p).st_name ≠ 0 := by
          have := hall.1; omega
        rw [if_neg hname, ih _ _ hfuel2]
        simp only [onDiskSymbolOf, hall, ne_eq, not_false_eq_true, and_self, if_true,
          List.append_assoc, List.singleton_append]
    · rw [if_neg hlt]
      have h0 : (symbol_table_end - p + (SIZEOF_SYM - 1)) / SIZEOF_SYM = 0 := by
        simp only [SIZEOF_SYM]; omega
      simp [h0]

/-! ## Lemmas: the GNU hash decoder -/

theorem symCntScan_first_hash_tag (mem : Memory) (base : Nat) (pre : List ElfDyn)
    (it : ElfDyn) (post : List ElfDyn)
    (hpre : ∀ e ∈ pre, e.d_tag ≠ DT_NULL ∧ e.d_tag ≠ DT_HASH ∧ e.d_tag ≠ DT_GNU_HASH) :
    (it.d_tag = DT_HASH →
        symCntScan mem base (pre ++ it :: post)
          = mem.readWord (correct_address base it.d_ptr + SIZEOF_WORD * 1))
    ∧ (it.d_tag = DT_GNU_HASH →
        symCntScan mem base (pre ++ it :: post)
          = gnuHashSymCnt mem (correct_address base it.d_ptr)) := by
  have hfirst : ∀ (h : it.d_tag = DT_HASH ∨ it.d_tag = DT_GNU_HASH),
      firstHashTag (pre ++ it :: post) = some it := by
    intro h
    induction pre with
    | nil =>
      apply firstHashTag_cons_hash it post _ h
      rcases h with h | h <;> rw [h] <;> decide
    | cons e es ih =>
      have he := hpre e (List.mem_cons_self _ _)
      rw [List.cons_append, firstHashTag_cons_other e _ he.1 he.2.1 he.2.2]
      exact ih (fun x hx => hpre x (List.mem_cons_of_mem _ hx))
  constructor
  · intro h
    rw [symCntScan_eq, hfirst (Or.inl h)]
    simp only [h, if_true]
  · intro h
    have hne : ¬ it.d_tag = DT_HASH := by rw [h]; decide
    rw [symCntScan_eq, hfirst (Or.inr h)]
    simp only [hne, if_false]

/-- Claim C11 fails on the code. The GNU hash table at `0x1240` is well formed
for the dynamic symbol table of `N = 3` entries (the null symbol, `foo`, `bar`):
one bucket that holds `1`, first hashed symbol `1`, a chain of two words of
which the last has the low bit set. The `DT_GNU_HASH` branch subtracts the
first hashed symbol index from `sym_cnt` in place before it counts the chain
words, so it computes `1 - 1 + 2 = 2`, where the classic table of the same
symbol table gives `nchain = 3`; the live-header extractor then walks two
entries and never reaches `bar`. -/
theorem C11_gnu_count_drops_first_symbol_index :
    gnuHashSymCnt (hashMemory []) 0x1240 = .ok 2
    ∧ (hashMemory []).readWord (0x1200 + SIZEOF_WORD * 1) = .ok 3
    ∧ symCntScan (hashMemory []) 0x1000 gnuOnly = .ok 2
    ∧ symCntScan (hashMemory []) 0x1000 classicOnly = .ok 3
    ∧ collectSymbolsFromProgramHeaders (hashMemory gnuOnly) libhash [] = .ok [fooSymbol]
    ∧ collectSymbolsFromProgramHeaders (hashMemory classicOnly) libhash []
        = .ok [fooSymbol, ⟨0x1120, 0x1130, "bar"⟩] := by
  refine ⟨by rfl, by rfl, by rfl, by rfl, by rfl, by rfl⟩

/-- Claim C12 fails on the code. The GNU hash table at `0x1240` has the header
words `nbuckets = 1`, `first_symbol_index = 1`, `bloom_size = 1` and the bucket
`max_bucket = 1`. The walk starts at the chain index `1 - 1 = 0` and visits the
words `0x10` and `0x21`, of which the second has the low bit set: two steps,
and `steps + first_symbol_index = 3`, the number of symbols of the table. The
branch subtracts the first hashed symbol index from `sym_cnt` itself and does
not add it back, and computes `(1 - 1) + 2 = 2`. -/
theorem C12_gnu_count_lacks_first_symbol_index :
    (hashMemory []).readWord 0x1240 = .ok 1
    ∧ (hashMemory []).readWord (0x1240 + 4) = .ok 1
    ∧ (hashMemory []).readWord (0x1240 + 8) = .ok 1
    ∧ (hashMemory []).readWord 0x1258 = .ok 1
    ∧ (hashMemory []).readWord (0x125c + 4 * (1 - 1)) = .ok 0x10
    ∧ (hashMemory []).readWord (0x125c + 4 * (1 - 1 + 1)) = .ok 0x21
    ∧ gnuHashSymCnt (hashMemory []) 0x1240 = .ok (1 - 1 + 2)
    ∧ gnuHashSymCnt (hashMemory []) 0x1240 ≠ .ok (2 + 1) := by
  refine ⟨by rfl, by rfl, by rfl, by rfl, by rfl, by rfl, by rfl, ?_⟩
  have h : gnuHashSymCnt (hashMemory []) 0x1240 = .ok 2 := by rfl
  rw [h]
  intro hc
  simp only [Except.ok.injEq] at hc
  omega

/-- Claim C13, as amended: the first hash-table tag of the dynamic section
decides. When the entries before a hash-table entry are neither terminators nor
hash-table entries, the symbol count is the second word of the classic table
if that entry is a `DT_HASH` entry, and the result of the GNU bucket and chain
scan if it is a `DT_GNU_HASH` entry; a hash-table entry of either kind after
it is not looked at. -/
theorem C13_first_hash_tag_decides (mem : Memory) (base : Nat) (pre : List ElfDyn)
    (it : ElfDyn) (post : List ElfDyn)
    (hpre : ∀ e ∈ pre, e.d_tag ≠ DT_NULL ∧ e.d_tag ≠ DT_HASH ∧ e.d_tag ≠ DT_GNU_HASH) :
    (it.d_tag = DT_HASH →
        symCntScan mem base (pre ++ it :: post)
          = mem.readWord (correct_address base it.d_ptr + SIZEOF_WORD * 1))
    ∧ (it.d_tag = DT_GNU_HASH →
        symCntScan mem base (pre ++ it :: post)
          = gnuHashSymCnt mem (correct_address base it.d_ptr)) :=
  symCntScan_first_hash_tag mem base pre it post hpre

/-- An instance of claim C13 as amended: after a string table entry, the hash
table that comes first gives the count, `3` for the classic table and `2` for
the GNU table. -/
theorem C13_first_hash_tag_decides_witness :
    symCntScan (hashMemory []) 0x1000
        ([⟨DT_STRTAB, 0x300⟩] ++ ⟨DT_HASH, 0x200⟩ :: [⟨DT_GNU_HASH, 0x240⟩])
      = (hashMemory []).readWord (correct_address 0x1000 0x200 + SIZEOF_WORD * 1)
    ∧ symCntScan (hashMemory []) 0x1000
        ([⟨DT_STRTAB, 0x300⟩] ++ ⟨DT_GNU_HASH, 0x240⟩ :: [⟨DT_HASH, 0x200⟩])
      = gnuHashSymCnt (hashMemory []) (correct_address 0x1000 0x240) :=
  ⟨(C13_first_hash_tag_decides (hashMemory []) 0x1000 [⟨DT_STRTAB, 0x300⟩] ⟨DT_HASH, 0x200⟩
      [⟨DT_GNU_HASH, 0x240⟩] (by decide)).1 (by decide),
   (C13_first_hash_tag_decides (hashMemory []) 0x1000 [⟨DT_STRTAB, 0x300⟩]
      ⟨DT_GNU_HASH, 0x240⟩ [⟨DT_HASH, 0x200⟩] (by decide)).2 (by decide)⟩

/-- Claim C13 fails as stated: in a dynamic section with a `DT_GNU_HASH` entry
before a `DT_HASH` entry the GNU scan is used. The count is `2`, not the second
word `3` of the classic table, and the extractor stops before `bar`. -/
theorem C13_classic_precedence_counterexample :
    symCntScan (hashMemory []) 0x1000 gnuThenClassic
        = gnuHashSymCnt (hashMemory []) (correct_address 0x1000 0x240)
    ∧ symCntScan (hashMemory []) 0x1000 gnuThenClassic = .ok 2
    ∧ (hashMemory []).readWord (correct_address 0x1000 0x200 + SIZEOF_WORD * 1) = .ok 3
    ∧ collectSymbolsFromProgramHeaders (hashMemory gnuThenClassic) libhash []
        = .ok [fooSymbol] := by
  refine ⟨by rfl, by rfl, by rfl, by rfl⟩

theorem collectSymbolsFromProgramHeader_eq_reference (mem : Memory) (info : dl_phdr_info)
    (phdr : ElfPhdr) (symbols : List SymbolIndex.Symbol) (hdyn : phdr.p_type = PT_DYNAMIC) :
    collectSymbolsFromProgramHeader mem info phdr symbols
      = dynamicHeaderReference mem info phdr symbols := by
  unfold collectSymbolsFromProgramHeader dynamicHeaderReference
  simp only [hdyn, ne_eq, not_true_eq_false, if_false]
  simp only [symCntScan_eq, strtabScan_eq, symtabScan_eq]
  cases firstHashTag (mem.dyn ((info.dlpi_addr + phdr.p_vaddr) % ADDR_MOD)) with
  | none => rfl
  | some hash_entry =>
    simp only [correct_address, SIZEOF_WORD, Nat.mul_one]
    cases (if hash_entry.d_tag = DT_HASH then
        mem.readWord ((if hash_entry.d_ptr > info.dlpi_addr then hash_entry.d_ptr
          else (info.dlpi_addr + hash_entry.d_ptr) % ADDR_MOD) + 4)
        else gnuHashSymCnt mem (if hash_entry.d_ptr > info.dlpi_addr then hash_entry.d_ptr
          else (info.dlpi_addr + hash_entry.d_ptr) % ADDR_MOD)) with
    | error f => rfl
    | ok sym_cnt =>
      by_cases h0 : sym_cnt = 0
      · simp only [h0, if_true]
      · simp only [h0, if_false]
        cases firstTag DT_STRTAB (mem.dyn ((info.dlpi_addr + phdr.p_vaddr) % ADDR_MOD)) with
        | none => rfl
        | some strtab_entry =>
          by_cases hz : (if strtab_entry.d_ptr > info.dlpi_addr then strtab_entry.d_ptr
              else (info.dlpi_addr + strtab_entry.d_ptr) % ADDR_MOD) = 0
          · simp only [hz, if_true]
          · simp only [hz, if_false]

/-! ## Lemmas: what the live-header extractor reads -/

theorem readWord_congr (mem mem2 : Memory) (hlimit : mem2.limit = mem.limit)
    (hword : mem2.word = mem.word) (a : Nat) : mem2.readWord a = mem.readWord a := by
  simp only [Memory.readWord, hlimit, hword]

theorem readSym_congr (mem mem2 : Memory) (hsym : mem2.sym = mem.sym) (a : Nat) :
    mem2.readSym a = mem.readSym a := by
  simp only [Memory.readSym, hsym]

theorem gnuBucketLoop_congr (mem mem2 : Memory) (hlimit : mem2.limit = mem.limit)
    (hword : mem2.word = mem.word) (buckets n i c : Nat) :
    gnuBucketLoop mem2 buckets n i c = gnuBucketLoop mem buckets n i c := by
  induction n generalizing i c with
  | zero => rfl
  | succ n ih =>
    simp only [gnuBucketLoop, readWord_congr mem mem2 hlimit hword]
    cases mem.readWord (buckets + SIZEOF_WORD * i) with
    | error f => rfl
    | ok b => exact ih _ _

theorem gnuChainLoop_congr (mem mem2 : Memory) (hlimit : mem2.limit = mem.limit)
    (hword : mem2.word = mem.word) (fuel hashval cnt : Nat) :
    gnuChainLoop mem2 fuel hashval cnt = gnuChainLoop mem fuel hashval cnt := by
  induction fuel generalizing hashval cnt with
  | zero => rfl
  | succ n ih =>
    simp only [gnuChainLoop, readWord_congr mem mem2 hlimit hword]
    cases mem.readWord hashval with
    | error f => rfl
    | ok w =>
      by_cases hw : w % 2 = 1
      · simp only [hw, if_true]
      · simp only [hw, if_false]
        exact ih _ _

theorem gnuHashSymCnt_congr (mem mem2 : Memory) (hlimit : mem2.limit = mem.limit)
    (hword : mem2.word = mem.word) (hash : Nat) :
    gnuHashSymCnt mem2 hash = gnuHashSymCnt mem hash := by
  simp only [gnuHashSymCnt, readWord_congr mem mem2 hlimit hword,
    gnuBucketLoop_congr mem mem2 hlimit hword, gnuChainLoop_congr mem mem2 hlimit hword, hlimit]

theorem loadSym_congr (mem mem2 : Memory) (hlimit : mem2.limit = mem.limit)
    (hsym : mem2.sym = mem.sym) (a : Nat) : mem2.loadSym a = mem.loadSym a := by
  simp only [Memory.loadSym, hlimit, readSym_congr mem mem2 hsym]

theorem dynSymLoop_congr (mem mem2 : Memory) (hlimit : mem2.limit = mem.limit)
    (hsym : mem2.sym = mem.sym)
    (hcstr : mem2.cstr = mem.cstr) (base strtab elf_sym n i : Nat)
    (symbols : List SymbolIndex.Symbol) :
    dynSymLoop mem2 base strtab elf_sym n i symbols
      = dynSymLoop mem base strtab elf_sym n i symbols := by
  induction n generalizing i symbols with
  | zero => rfl
  | succ n ih =>
    simp only [dynSymLoop, loadSym_congr mem mem2 hlimit hsym, hcstr, ih]

/-- The dynamic section is read at `base + p_vaddr` and nowhere else: memories
that differ only in the dynamic sections at other addresses give the same
result. -/
theorem dynamicHeaderReference_congr (mem mem2 : Memory) (info : dl_phdr_info) (phdr : ElfPhdr)
    (symbols : List SymbolIndex.Symbol) (hlimit : mem2.limit = mem.limit)
    (hword : mem2.word = mem.word) (hsym : mem2.sym = mem.sym) (hcstr : mem2.cstr = mem.cstr)
    (hdyn : mem2.dyn ((info.dlpi_addr + phdr.p_vaddr) % ADDR_MOD)
      = mem.dyn ((info.dlpi_addr + phdr.p_vaddr) % ADDR_MOD)) :
    dynamicHeaderReference mem2 info phdr symbols = dynamicHeaderReference mem info phdr symbols := by
  simp only [dynamicHeaderReference, hdyn, readWord_congr mem mem2 hlimit hword,
    gnuHashSymCnt_congr mem mem2 hlimit hword, dynSymLoop_congr mem mem2 hlimit hsym hcstr]

theorem correct_address_of_gt (base raw : Nat) (h : raw > base) :
    correct_address base raw = raw := by
  simp only [correct_address, h, if_true]

theorem correct_address_of_le (base raw : Nat) (h : raw ≤ base) :
    correct_address base raw = (base + raw) % ADDR_MOD := by
  have : ¬ raw > base := by omega
  simp only [correct_address, this, if_false]

/-- Claim C15: the on-disk extraction is a filter over the symbol table. The
list after `collectSymbolsFromELFSymbolTable` is the list before it followed,
in table order, by one symbol for each entry of the symbol table section whose
name offset, value and size are not zero and whose name address lies before
the end of the mapped file (`onDiskSymbolOf`): the range is
`[base + st_value, base + st_value + st_size)` in 64-bit arithmetic and the
name is read at the string table base plus the name offset. -/
theorem C15_on_disk_extraction_is_filter (mem : Memory) (info : dl_phdr_info) (elf : Elf)
    (symbol_table string_table : Elf.Section) (symbols : List SymbolIndex.Symbol) :
    collectSymbolsFromELFSymbolTable mem info elf symbol_table string_table symbols
      = symbols ++ symbol_table.entryAddresses.filterMap
          (onDiskSymbolOf mem info.dlpi_addr string_table.begin_ elf.end_) := by
  unfold collectSymbolsFromELFSymbolTable Elf.Section.entryAddresses
  exact elfSymLoop_eq_filterMap mem _ _ _ _ _ _ symbols (Nat.le_refl _)

/-- Claim C14, as amended: the table pointers are corrected, the start of the
dynamic section is not. For a `PT_DYNAMIC` header the extractor does what
`dynamicHeaderReference` does: it reads the dynamic section at
`base + p_vaddr` modulo `2 ^ 64`, whatever `p_vaddr` is, and at no other
address; the hash table, string table and symbol table addresses are the
`d_ptr` values passed through `correct_address`, which returns `raw` when
`raw > base` and `base + raw` modulo `2 ^ 64` otherwise. -/
theorem C14_table_pointers_corrected (mem : Memory) (info : dl_phdr_info) (phdr : ElfPhdr)
    (symbols : List SymbolIndex.Symbol) (hdyn : phdr.p_type = PT_DYNAMIC) :
    collectSymbolsFromProgramHeader mem info phdr symbols
        = dynamicHeaderReference mem info phdr symbols
    ∧ (∀ mem2 : Memory, mem2.limit = mem.limit → mem2.word = mem.word → mem2.sym = mem.sym →
        mem2.cstr = mem.cstr →
        mem2.dyn ((info.dlpi_addr + phdr.p_vaddr) % ADDR_MOD)
          = mem.dyn ((info.dlpi_addr + phdr.p_vaddr) % ADDR_MOD) →
        collectSymbolsFromProgramHeader mem2 info phdr symbols
          = collectSymbolsFromProgramHeader mem info phdr symbols)
    ∧ (∀ base raw, raw > base → correct_address base raw = raw)
    ∧ (∀ base raw, raw ≤ base → correct_address base raw = (base + raw) % ADDR_MOD) := by
  refine ⟨collectSymbolsFromProgramHeader_eq_reference mem info phdr symbols hdyn, ?_,
    correct_address_of_gt, correct_address_of_le⟩
  intro mem2 hlimit hword hsym hcstr hsection
  rw [collectSymbolsFromProgramHeader_eq_reference mem info phdr symbols hdyn,
    collectSymbolsFromProgramHeader_eq_reference mem2 info phdr symbols hdyn]
  exact dynamicHeaderReference_congr mem mem2 info phdr symbols hlimit hword hsym hcstr hsection

/-- An instance of claim C14 as amended: the dynamic header of `libhash.so`
with the relative `p_vaddr = 0x800`. -/
theorem C14_table_pointers_corrected_witness :
    collectSymbolsFromProgramHeader (hashMemory classicOnly) libhash ⟨PT_DYNAMIC, 0x800⟩ []
        = dynamicHeaderReference (hashMemory classicOnly) libhash ⟨PT_DYNAMIC, 0x800⟩ []
    ∧ dynamicHeaderReference (hashMemory classicOnly) libhash ⟨PT_DYNAMIC, 0x800⟩ []
        = .ok [fooSymbol, ⟨0x1120, 0x1130, "bar"⟩] :=
  ⟨(C14_table_pointers_corrected (hashMemory classicOnly) libhash ⟨PT_DYNAMIC, 0x800⟩ []
      (by decide)).1, by rfl⟩

/-- Claim C14 fails as stated for the start of the dynamic section. With the
base `0x1000` and the absolute `p_vaddr = 0x1800`, which is greater than the
base, the correction would leave `0x1800`, where the dynamic section lies; the
extractor reads at `0x1000 + 0x1800 = 0x2800`, finds no entry, and appends
nothing. With the relative `p_vaddr = 0x800` it appends `foo` and `bar`. -/
theorem C14_dynamic_section_start_counterexample :
    correct_address libhashAbsolute.dlpi_addr 0x1800 = 0x1800
    ∧ (hashMemory classicOnly).dyn 0x1800 = classicOnly
    ∧ (hashMemory classicOnly).dyn ((libhashAbsolute.dlpi_addr + 0x1800) % ADDR_MOD) = []
    ∧ collectSymbolsFromProgramHeaders (hashMemory classicOnly) libhashAbsolute [] = .ok []
    ∧ collectSymbolsFromProgramHeaders (hashMemory classicOnly) libhash []
        = .ok [fooSymbol, ⟨0x1120, 0x1130, "bar"⟩] := by
  refine ⟨by rfl, by rfl, by rfl, by rfl, by rfl⟩

/-- Claim C17, as amended: the live-header extractor contributes nothing when
the symbol metadata is absent. When every program header of the descriptor is
not of type `PT_DYNAMIC`, or has a dynamic section with neither a classic nor a
GNU hash-table entry, or has a symbol count that is computed as zero, or has a
symbol count that is computed and no string table entry, the extractor returns
normally and the symbol list is as it was. -/
theorem C17_nothing_without_symbol_metadata (mem : Memory) (info : dl_phdr_info)
    (symbols : List SymbolIndex.Symbol)
    (h : ∀ phdr ∈ info.dlpi_phdr,
      phdr.p_type ≠ PT_DYNAMIC
      ∨ firstHashTag (mem.dyn ((info.dlpi_addr + phdr.p_vaddr) % ADDR_MOD)) = none
      ∨ symCntScan mem info.dlpi_addr
          (mem.dyn ((info.dlpi_addr + phdr.p_vaddr) % ADDR_MOD)) = .ok 0
      ∨ ((∃ n, symCntScan mem info.dlpi_addr
            (mem.dyn ((info.dlpi_addr + phdr.p_vaddr) % ADDR_MOD)) = .ok n)
          ∧ firstTag DT_STRTAB (mem.dyn ((info.dlpi_addr + phdr.p_vaddr) % ADDR_MOD)) = none)) :
    collectSymbolsFromProgramHeaders mem info symbols = .ok symbols := by
  unfold collectSymbolsFromProgramHeaders
  generalize info.dlpi_phdr = phdrs at h
  induction phdrs with
  | nil => rfl
  | cons phdr rest ih =>
    have hheader : collectSymbolsFromProgramHeader mem info phdr symbols = .ok symbols := by
      unfold collectSymbolsFromProgramHeader
      rcases h phdr (List.mem_cons_self _ _) with h1 | h2 | h3 | ⟨⟨n, hn⟩, h4⟩
      · simp only [h1, ne_eq, not_false_eq_true, if_true]
      · by_cases hd : phdr.p_type ≠ PT_DYNAMIC
        · simp only [hd, ne_eq, not_false_eq_true, if_true]
        · simp only [hd, if_false, symCntScan_eq, h2, if_true]
      · by_cases hd : phdr.p_type ≠ PT_DYNAMIC
        · simp only [hd, ne_eq, not_false_eq_true, if_true]
        · simp only [hd, if_false, h3, if_true]
      · by_cases hd : phdr.p_type ≠ PT_DYNAMIC
        · simp only [hd, ne_eq, not_false_eq_true, if_true]
        · simp only [hd, if_false, hn, strtabScan_eq, h4, if_true, ite_self]
    rw [collectSymbolsFromProgramHeadersFrom_cons mem info phdr rest symbols symbols hheader]
    exact ih (fun p hp => h p (List.mem_cons_of_mem _ hp))

/-- An instance of claim C17 as amended: `libhash.so` with a classic hash table
of three symbols and no string table entry. -/
theorem C17_nothing_without_symbol_metadata_witness :
    collectSymbolsFromProgramHeaders (hashMemory noStrtab) libhash [fooSymbol]
      = .ok [fooSymbol] :=
  C17_nothing_without_symbol_metadata (hashMemory noStrtab) libhash [fooSymbol]
    (fun phdr hp => by
      have hcases : phdr = ⟨1, 0⟩ ∨ phdr = ⟨PT_DYNAMIC, 0x800⟩ := by
        simpa [libhash] using hp
      rcases hcases with rfl | rfl
      · exact Or.inl (by decide)
      · exact Or.inr (Or.inr (Or.inr ⟨⟨3, by rfl⟩, by rfl⟩)))

/-- Claim C17 fails as stated for a descriptor without a string table entry
whose hash table cannot be read: the symbol count is computed before the string
table is looked for. With a `DT_HASH` entry that points beyond the end of the
memory and no `DT_STRTAB` entry the read of the count faults and the extractor
does not return. -/
theorem C17_no_strtab_counterexample :
    firstTag DT_STRTAB wildHash = none
    ∧ (hashMemory wildHash).readWord (correct_address libhash.dlpi_addr 0x400000 + SIZEOF_WORD * 1)
        = .error Fault.segv
    ∧ collectSymbolsFromProgramHeaders (hashMemory wildHash) libhash [fooSymbol]
        = .error Fault.segv := by
  refine ⟨by rfl, by rfl, by rfl⟩

/-! ## Lemmas: the rebuild with any `std::sort` -/

theorem update_eq_updateWith (host : Host) (index : SymbolIndex) :
    SymbolIndex.update host index
      = SymbolIndex.updateWith (sort beginLess) (sort beginLess) host index := rfl

theorem sort_conforming {T : Type} [AddressRange T] :
    ConformingSort (sort (beginLess : T → T → Bool)) :=
  fun l => ⟨sort_perm _ l, sort_sorted l⟩

theorem sortReversingTies_conforming {T : Type} [AddressRange T] :
    ConformingSort (sortReversingTies : List T → List T) := by
  intro l
  unfold sortReversingTies
  by_cases h : l.length ≤ 2
  · rw [if_pos h]
    exact ⟨sort_perm _ l, sort_sorted l⟩
  · rw [if_neg h]
    exact ⟨(sort_perm _ l.reverse).trans (List.reverse_perm l), sort_sorted l.reverse⟩

theorem updateWith_eq_map (sortObjects : List SymbolIndex.Object → List SymbolIndex.Object)
    (sortSymbols : List SymbolIndex.Symbol → List SymbolIndex.Symbol)
    (host : Host) (index : SymbolIndex) :
    SymbolIndex.updateWith sortObjects sortSymbols host index
      = (dl_iterate_phdr (collectSymbols host) host.loaded SymbolIndex.Data.empty).map
          (fun enumerated =>
            { data :=
                { objects := sortObjects (index.data.objects ++ enumerated.objects)
                  symbols :=
                    unique sameRange (sortSymbols (index.data.symbols ++ enumerated.symbols)) } }) := by
  unfold SymbolIndex.updateWith
  rw [dl_iterate_phdr_append host host.loaded index.data]
  cases dl_iterate_phdr (collectSymbols host) host.loaded SymbolIndex.Data.empty with
  | error f => rfl
  | ok enumerated => rfl

/-- The ranges of the symbols of a list that was sorted by a conforming sort
and made unique are the ranges of the symbols of the list. -/
theorem range_unique_conforming (sortSymbols : List SymbolIndex.Symbol → List SymbolIndex.Symbol)
    (hsort : ConformingSort sortSymbols) (l : List SymbolIndex.Symbol) (b e : Nat) :
    (∃ s ∈ unique sameRange (sortSymbols l), s.address_begin = b ∧ s.address_end = e)
      ↔ (∃ s ∈ l, s.address_begin = b ∧ s.address_end = e) := by
  constructor
  · rintro ⟨s, hs, hb, he⟩
    exact ⟨s, ((hsort l).1.mem_iff).mp ((unique_sublist _ _).subset hs), hb, he⟩
  · rintro ⟨s, hs, hb, he⟩
    obtain ⟨t, ht, htb, hte⟩ := unique_covers (sortSymbols l) s (((hsort l).1.mem_iff).mpr hs)
    exact ⟨t, ht, htb.trans hb, hte.trans he⟩

theorem mem_of_mem_unique_conforming
    (sortSymbols : List SymbolIndex.Symbol → List SymbolIndex.Symbol)
    (hsort : ConformingSort sortSymbols) (l : List SymbolIndex.Symbol) (s : SymbolIndex.Symbol)
    (hs : s ∈ unique sameRange (sortSymbols l)) : s ∈ l :=
  ((hsort l).1.mem_iff).mp ((unique_sublist _ _).subset hs)

/-- Claim C4, as amended: `update` is idempotent on the set of ranges. Whatever
`std::sort` does with the entries of equal `address_begin` (`sortSymbols` is a
sorted permutation of its input): when an `update` of the empty index returns,
a second `update` with the same loader state returns too; a pair
`(address_begin, address_end)` is the range of a symbol after the second call
exactly when it is the range of a symbol after the first; and every symbol of
both snapshots is one of the symbols that the enumeration reports. -/
theorem C4_second_update_same_range_set
    (sortObjects : List SymbolIndex.Object → List SymbolIndex.Object)
    (sortSymbols : List SymbolIndex.Symbol → List SymbolIndex.Symbol)
    (host : Host) (index1 : SymbolIndex)
    (hsort : ConformingSort sortSymbols)
    (h : SymbolIndex.updateWith sortObjects sortSymbols host {} = .ok index1) :
    ∃ index2 enumerated,
      SymbolIndex.updateWith sortObjects sortSymbols host index1 = .ok index2
      ∧ dl_iterate_phdr (collectSymbols host) host.loaded { symbols := [], objects := [] }
          = .ok enumerated
      ∧ (∀ b e, (∃ s ∈ index2.data.symbols, s.address_begin = b ∧ s.address_end = e)
          ↔ (∃ s ∈ index1.data.symbols, s.address_begin = b ∧ s.address_end = e))
      ∧ (∀ s ∈ index1.data.symbols, s ∈ enumerated.symbols)
      ∧ (∀ s ∈ index2.data.symbols, s ∈ enumerated.symbols) := by
  rw [updateWith_eq_map] at h
  cases hacc : dl_iterate_phdr (collectSymbols host) host.loaded SymbolIndex.Data.empty with
  | error f => rw [hacc] at h; simp [Except.map] at h
  | ok acc =>
    rw [hacc] at h
    simp only [Except.map, Except.ok.injEq] at h
    have hsym1 : index1.data.symbols = unique sameRange (sortSymbols acc.symbols) := by
      rw [← h]
      show unique sameRange (sortSymbols (([] : List SymbolIndex.Symbol) ++ acc.symbols)) = _
      rw [List.nil_append]
    have hin1 : ∀ s ∈ index1.data.symbols, s ∈ acc.symbols := by
      intro s hs
      rw [hsym1] at hs
      exact mem_of_mem_unique_conforming sortSymbols hsort _ s hs
    refine ⟨{ data :=
        { objects := sortObjects (index1.data.objects ++ acc.objects)
          symbols := unique sameRange (sortSymbols (index1.data.symbols ++ acc.symbols)) } },
      acc, ?_, hacc, ?_, hin1, ?_⟩
    · rw [updateWith_eq_map, hacc]
      rfl
    · intro b e
      show (∃ s ∈ unique sameRange (sortSymbols (index1.data.symbols ++ acc.symbols)), _) ↔ _
      rw [range_unique_conforming sortSymbols hsort]
      constructor
      · rintro ⟨s, hs, hb, he⟩
        rcases List.mem_append.mp hs with hs | hs
        · exact ⟨s, hs, hb, he⟩
        · rw [hsym1]
          exact (range_unique_conforming sortSymbols hsort acc.symbols b e).mpr ⟨s, hs, hb, he⟩
      · rintro ⟨s, hs, hb, he⟩
        exact ⟨s, List.mem_append_left _ hs, hb, he⟩
    · intro s hs
      have hs2 : s ∈ unique sameRange (sortSymbols (index1.data.symbols ++ acc.symbols)) := hs
      rcases List.mem_append.mp (mem_of_mem_unique_conforming sortSymbols hsort _ s hs2)
        with hs3 | hs3
      · exact hin1 s hs3
      · exact hs3

/-- An instance of claim C4 as amended: the process that has loaded
`libalias.so`, with a `std::sort` that is not stable. -/
theorem C4_second_update_same_range_set_witness :
    ConformingSort (sortReversingTies : List SymbolIndex.Symbol → List SymbolIndex.Symbol)
    ∧ SymbolIndex.updateWith sortReversingTies sortReversingTies aliasHost {}
        = .ok { data := { symbols := [fooSymbol], objects := [libaliasObject] } }
    ∧ ∃ index2 enumerated,
      SymbolIndex.updateWith sortReversingTies sortReversingTies aliasHost
          { data := { symbols := [fooSymbol], objects := [libaliasObject] } } = .ok index2
      ∧ dl_iterate_phdr (collectSymbols aliasHost) aliasHost.loaded
          { symbols := [], objects := [] } = .ok enumerated
      ∧ (∀ b e, (∃ s ∈ index2.data.symbols, s.address_begin = b ∧ s.address_end = e)
          ↔ (∃ s ∈ ({ data := { symbols := [fooSymbol], objects := [libaliasObject] } } :
                SymbolIndex).data.symbols, s.address_begin = b ∧ s.address_end = e))
      ∧ (∀ s ∈ ({ data := { symbols := [fooSymbol], objects := [libaliasObject] } } :
            SymbolIndex).data.symbols, s ∈ enumerated.symbols)
      ∧ (∀ s ∈ index2.data.symbols, s ∈ enumerated.symbols) :=
  ⟨sortReversingTies_conforming, by rfl,
   C4_second_update_same_range_set sortReversingTies sortReversingTies aliasHost
     { data := { symbols := [fooSymbol], objects := [libaliasObject] } }
     sortReversingTies_conforming (by rfl)⟩

/-- Claim C4 fails as stated: `std::sort` leaves the order of the entries of
equal `address_begin` open, and with it the name that `std::unique` keeps for a
range that is reported under two names. `libalias.so` reports
`[0x1100, 0x1120)` as `foo` and as `foo_impl`. With a `std::sort` that meets
the standard and reverses the ties of lists of more than two entries, the
first `update` keeps `foo` and the second keeps `foo_impl`: the triple
`(0x1100, 0x1120, foo)` is in the first snapshot and not in the second. -/
theorem C4_symbol_set_changes_counterexample :
    ConformingSort (sortReversingTies : List SymbolIndex.Symbol → List SymbolIndex.Symbol)
    ∧ ConformingSort (sortReversingTies : List SymbolIndex.Object → List SymbolIndex.Object)
    ∧ dl_iterate_phdr (collectSymbols aliasHost) aliasHost.loaded
        { symbols := [], objects := [] }
        = .ok { symbols := [fooSymbol, ⟨0x1100, 0x1120, "foo_impl"⟩],
                objects := [libaliasObject] }
    ∧ SymbolIndex.updateWith sortReversingTies sortReversingTies aliasHost {}
        = .ok { data := { symbols := [fooSymbol], objects := [libaliasObject] } }
    ∧ SymbolIndex.updateWith sortReversingTies sortReversingTies aliasHost
          { data := { symbols := [fooSymbol], objects := [libaliasObject] } }
        = .ok { data := { symbols := [⟨0x1100, 0x1120, "foo_impl"⟩],
                          objects := [libaliasObject, libaliasObject] } }
    ∧ fooSymbol ∈ [fooSymbol]
    ∧ fooSymbol ∉ [(⟨0x1100, 0x1120, "foo_impl"⟩ : SymbolIndex.Symbol)] := by
  refine ⟨sortReversingTies_conforming, sortReversingTies_conforming, by rfl, by rfl, by rfl,
    by decide, by decide⟩

/-- Claim C3, as amended: `update` does not discard the prior snapshot.
Whatever `std::sort` does with the entries of equal `address_begin`
(`sortObjects` and `sortSymbols` are sorted permutations of their input): with
the objects and symbols that the enumeration yields from empty lists for the
same loader state, the object list after `update` is the prior object list
followed by the enumerated objects, sorted by `address_begin`, and the symbol
list is the prior symbol list followed by the enumerated symbols, sorted and
made unique; `update` fails exactly when that enumeration fails. When `update`
returns `index1` from the prior snapshot and `index0` from the empty one: the
object list of `index1` has the length of the prior object list plus the
length of the object list of `index0`; every prior object is in `index1`; the
range of every prior symbol is the range of a symbol of `index1`; and `index1`
is `index0` only if the prior object list is empty. A second `update` after
one from the empty snapshot leaves an object list twice as long. -/
theorem C3_update_keeps_prior_snapshot
    (sortObjects : List SymbolIndex.Object → List SymbolIndex.Object)
    (sortSymbols : List SymbolIndex.Symbol → List SymbolIndex.Symbol)
    (host : Host) (index : SymbolIndex)
    (hobjects : ConformingSort sortObjects) (hsymbols : ConformingSort sortSymbols) :
    SymbolIndex.updateWith sortObjects sortSymbols host index
      = (dl_iterate_phdr (collectSymbols host) host.loaded { symbols := [], objects := [] }).map
          (fun enumerated =>
            { data :=
                { objects := sortObjects (index.data.objects ++ enumerated.objects)
                  symbols :=
                    unique sameRange (sortSymbols (index.data.symbols ++ enumerated.symbols)) } })
    ∧ (∀ index0 index1, SymbolIndex.updateWith sortObjects sortSymbols host {} = .ok index0 →
        SymbolIndex.updateWith sortObjects sortSymbols host index = .ok index1 →
        index1.data.objects.length
            = index.data.objects.length + index0.data.objects.length
          ∧ (∀ o ∈ index.data.objects, o ∈ index1.data.objects)
          ∧ (∀ s ∈ index.data.symbols, ∃ t ∈ index1.data.symbols,
              t.address_begin = s.address_begin ∧ t.address_end = s.address_end)
          ∧ (index1 = index0 → index.data.objects = []))
    ∧ (∀ index0 index1, SymbolIndex.updateWith sortObjects sortSymbols host {} = .ok index0 →
        SymbolIndex.updateWith sortObjects sortSymbols host index0 = .ok index1 →
        index1.data.objects.length = 2 * index0.data.objects.length) := by
  have key : ∀ (prior index0 index1 : SymbolIndex),
      SymbolIndex.updateWith sortObjects sortSymbols host {} = .ok index0 →
      SymbolIndex.updateWith sortObjects sortSymbols host prior = .ok index1 →
      index1.data.objects.length
          = prior.data.objects.length + index0.data.objects.length
        ∧ (∀ o ∈ prior.data.objects, o ∈ index1.data.objects)
        ∧ (∀ s ∈ prior.data.symbols, ∃ t ∈ index1.data.symbols,
            t.address_begin = s.address_begin ∧ t.address_end = s.address_end) := by
    intro prior index0 index1 h0 h1
    rw [updateWith_eq_map] at h0 h1
    cases hacc : dl_iterate_phdr (collectSymbols host) host.loaded SymbolIndex.Data.empty with
    | error f => rw [hacc] at h0; simp [Except.map] at h0
    | ok acc =>
      rw [hacc] at h0 h1
      simp only [Except.map, Except.ok.injEq] at h0 h1
      subst h0 h1
      refine ⟨?_, ?_, ?_⟩
      · show (sortObjects (prior.data.objects ++ acc.objects)).length
          = prior.data.objects.length
            + (sortObjects (([] : List SymbolIndex.Object) ++ acc.objects)).length
        rw [(hobjects _).1.length_eq, (hobjects _).1.length_eq, List.length_append,
          List.nil_append]
      · intro o ho
        exact ((hobjects _).1.mem_iff).mpr (List.mem_append_left _ ho)
      · intro s hs
        exact unique_covers _ s (((hsymbols _).1.mem_iff).mpr (List.mem_append_left _ hs))
  refine ⟨updateWith_eq_map sortObjects sortSymbols host index, ?_, ?_⟩
  · intro index0 index1 h0 h1
    obtain ⟨hlen, hobj, hsym⟩ := key index index0 index1 h0 h1
    refine ⟨hlen, hobj, hsym, ?_⟩
    intro heq
    rw [heq] at hlen
    exact List.length_eq_zero.mp (by omega)
  · intro index0 index1 h0 h1
    have := (key index0 index0 index1 h0 h1).1
    omega

/-- An instance of claim C3 as amended: the process that has loaded
`libfoo.so`, with the insertion sort as `std::sort`; the second `update` keeps
the object record of the first. -/
theorem C3_update_keeps_prior_snapshot_witness :
    SymbolIndex.updateWith (sort beginLess) (sort beginLess) (exampleHost barEntry [libfoo]) {}
        = .ok libfooIndex
    ∧ SymbolIndex.updateWith (sort beginLess) (sort beginLess) (exampleHost barEntry [libfoo])
        libfooIndex = .ok libfooTwiceIndex
    ∧ libfooTwiceIndex.data.objects.length
        = libfooIndex.data.objects.length + libfooIndex.data.objects.length
    ∧ (∀ o ∈ libfooIndex.data.objects, o ∈ libfooTwiceIndex.data.objects)
    ∧ (∀ s ∈ libfooIndex.data.symbols, ∃ t ∈ libfooTwiceIndex.data.symbols,
        t.address_begin = s.address_begin ∧ t.address_end = s.address_end)
    ∧ (libfooTwiceIndex = libfooIndex → libfooIndex.data.objects = [])
    ∧ libfooTwiceIndex.data.objects.length = 2 * libfooIndex.data.objects.length :=
  ⟨by rfl, by rfl,
   ((C3_update_keeps_prior_snapshot (sort beginLess) (sort beginLess)
      (exampleHost barEntry [libfoo]) libfooIndex sort_conforming sort_conforming).2.1
      libfooIndex libfooTwiceIndex (by rfl) (by rfl)).1,
   ((C3_update_keeps_prior_snapshot (sort beginLess) (sort beginLess)
      (exampleHost barEntry [libfoo]) libfooIndex sort_conforming sort_conforming).2.1
      libfooIndex libfooTwiceIndex (by rfl) (by rfl)).2.1,
   ((C3_update_keeps_prior_snapshot (sort beginLess) (sort beginLess)
      (exampleHost barEntry [libfoo]) libfooIndex sort_conforming sort_conforming).2.1
      libfooIndex libfooTwiceIndex (by rfl) (by rfl)).2.2.1,
   ((C3_update_keeps_prior_snapshot (sort beginLess) (sort beginLess)
      (exampleHost barEntry [libfoo]) libfooIndex sort_conforming sort_conforming).2.1
      libfooIndex libfooTwiceIndex (by rfl) (by rfl)).2.2.2,
   (C3_update_keeps_prior_snapshot (sort beginLess) (sort beginLess)
      (exampleHost barEntry [libfoo]) libfooIndex sort_conforming sort_conforming).2.2
      libfooIndex libfooTwiceIndex (by rfl) (by rfl)⟩

/-- Claim C3 fails as stated: with `libfoo.so` loaded, a second `update` leaves
two object records where an `update` from the empty index leaves one. -/
theorem C3_update_replaces_snapshot_counterexample :
    SymbolIndex.update (exampleHost barEntry [libfoo]) {} = .ok libfooIndex
    ∧ SymbolIndex.update (exampleHost barEntry [libfoo]) libfooIndex = .ok libfooTwiceIndex
    ∧ libfooIndex.data.objects.length = 1
    ∧ libfooTwiceIndex.data.objects.length = 2
    ∧ SymbolIndex.update (exampleHost barEntry [libfoo]) libfooIndex
        ≠ SymbolIndex.update (exampleHost barEntry [libfoo]) {} := by
  have h1 : SymbolIndex.update (exampleHost barEntry [libfoo]) {} = .ok libfooIndex := by rfl
  have h2 : SymbolIndex.update (exampleHost barEntry [libfoo]) libfooIndex
      = .ok libfooTwiceIndex := by rfl
  refine ⟨h1, h2, by rfl, by rfl, ?_⟩
  rw [h1, h2]
  intro h
  have hlen := congrArg
    (fun r : Except Fault SymbolIndex =>
      match r with
      | .ok i => i.data.objects.length
      | .error _ => 0) h
  exact absurd hlen (by decide)

end DB
